import Mathlib

/-!
# Verification of the guarded execution pipeline of `shortcut-mcp`

This file gives a shallow embedding of the security / execution core of the
`shortcut-mcp` repository (`src/security/manager.ts`, `src/shortcuts/manager.ts`,
and the request pipeline) and proves the specified properties about it.

Conventions of the embedding:
* TypeScript `number` timestamps (`Date.now()` milliseconds) are embedded as `Int`;
  counts and sizes are `Nat`.
* The mutable `Map` fields (`rateLimitTracker`, the caches) are embedded as
  explicit function-valued state that operations take and return.
* Fallible operations return `Option` / `Except`.
* JavaScript string operations (`toLowerCase`, `includes`, `startsWith`) are
  embedded on `List Char` / `String`; `Char.toLower` agrees with JavaScript
  `toLowerCase` on the ASCII keyword sets used by the code.
-/

namespace ShortcutMCP

/-- Risk classification attached to every security decision
(`src/types/security.ts`, used throughout `src/security/manager.ts`). -/
inductive SecurityRiskLevel where
  | LOW
  | MEDIUM
  | HIGH
  deriving DecidableEq, Repr

/-- Result of a security decision (`SecurityResult` in `src/types/security.ts`):
an allow flag, an optional human-readable reason, and a risk level. -/
structure SecurityResult where
  allowed : Bool
  reason : Option String := none
  riskLevel : SecurityRiskLevel
  deriving DecidableEq, Repr

/-- Rate-limit knobs (`config.security.rateLimit`): window in milliseconds and
the maximum number of requests admitted per window. -/
structure RateLimitConfig where
  windowMs : Int
  maxRequests : Nat
  deriving DecidableEq, Repr

/-- The `SecurityConfig` slice consumed by `SecurityManager`
(`src/types/config.ts`).  The optional TypeScript fields `blockedShortcuts` and
`allowedPrefixes` are embedded as plain lists: the code reads them through
`?.includes` and `|| []`, so an absent field behaves exactly like `[]`. -/
structure SecurityConfig where
  blockedShortcuts : List String
  allowSystemShortcuts : Bool
  allowedPrefixes : List String
  maxInputSize : Nat
  logExecutions : Bool
  enableRateLimit : Bool
  rateLimit : RateLimitConfig
  deriving DecidableEq, Repr

/-- JavaScript `hay.includes(sub)`: substring containment on char lists
(scans every suffix for `sub` as a prefix). -/
def strIncludesChars (hay sub : List Char) : Bool :=
  sub.isPrefixOf hay ||
    match hay with
    | [] => false
    | _ :: t => strIncludesChars t sub

/-- JavaScript `hay.includes(sub)` on strings. -/
def strIncludes (hay sub : String) : Bool :=
  strIncludesChars hay.data sub.data

/-- JavaScript `s.toLowerCase()` (character-wise `Char.toLower`; agrees with
JavaScript on the ASCII range the keyword sets live in). -/
def strToLower (s : String) : String :=
  String.mk (s.data.map Char.toLower)

/-- JavaScript `s.startsWith(p)`: prefix test on the char lists. -/
def strStartsWith (s p : String) : Bool :=
  p.data.isPrefixOf s.data

/-- The fixed keyword set of `SecurityManager.isSystemShortcut`
(`src/security/manager.ts:314-317`). -/
def systemKeywords : List String :=
  ["system", "setting", "preference", "config", "admin",
   "security", "password", "keychain", "permission"]

/-- `SecurityManager.isSystemShortcut` (`src/security/manager.ts:313-321`):
case-insensitive substring match of the shortcut name against the fixed
system keyword set. -/
def isSystemShortcut (shortcutName : String) : Bool :=
  let lowerName := strToLower shortcutName
  systemKeywords.any fun keyword => strIncludes lowerName keyword

/-- `SecurityManager.isShortcutAllowed` (`src/security/manager.ts:67-97`):
block list check, then system-shortcut check, then allowed-prefix check. -/
def isShortcutAllowed (cfg : SecurityConfig) (shortcutName : String) : Bool :=
  if cfg.blockedShortcuts.contains shortcutName then
    false
  else if !cfg.allowSystemShortcuts && isSystemShortcut shortcutName then
    false
  else
    let allowedPrefixes := cfg.allowedPrefixes
    if allowedPrefixes.length > 0 then
      if allowedPrefixes.any (fun p => strStartsWith shortcutName p) then
        true
      else
        false
    else
      true

/-- The per-client request-timestamp state of `SecurityManager.rateLimitTracker`
(`Map<string, number[]>`), embedded as a total function; a client the `Map`
does not hold is mapped to `[]`, matching `this.rateLimitTracker.get(clientId) || []`. -/
def RateTracker : Type := String → List Int

/-- The empty rate tracker (a fresh `SecurityManager`). -/
def RateTracker.empty : RateTracker := fun _ => []

/-- `SecurityManager.checkRateLimit` (`src/security/manager.ts:286-311`):
drop timestamps outside the sliding window, deny (without mutating state)
when the remaining count reaches the limit, otherwise record `now` and allow. -/
def checkRateLimit (cfg : SecurityConfig) (tracker : RateTracker)
    (clientId : String) (now : Int) : SecurityResult × RateTracker :=
  let window := cfg.rateLimit.windowMs
  let maxRequests := cfg.rateLimit.maxRequests
  let requestTimes := tracker clientId
  let requestTimes := requestTimes.filter fun time => now - time < window
  if requestTimes.length ≥ maxRequests then
    ({ allowed := false,
       reason := some ("Rate limit exceeded: " ++ toString maxRequests ++
         " requests per " ++ toString window ++ "ms"),
       riskLevel := SecurityRiskLevel.MEDIUM }, tracker)
  else
    let requestTimes := requestTimes ++ [now]
    ({ allowed := true, riskLevel := SecurityRiskLevel.LOW },
      fun c => if c = clientId then requestTimes else tracker c)

/-- A JavaScript value reachable as request input / shortcut output
(the duck-typed `any` payloads of the source).  `vCyclic` stands for a value
on which `JSON.stringify` throws (e.g. a self-referential structure); every
other constructor serializes successfully. -/
inductive InputVal where
  | vStr (s : String)
  | vInt (n : Int)
  | vBool (b : Bool)
  | vNull
  | vArr (elems : List InputVal)
  | vObj (fields : List (String × InputVal))
  | vCyclic

/-- JavaScript truthiness of an `InputVal` (`if (input && ...)`):
`""`, `0`, `false` and `null` are falsy; objects and arrays are truthy. -/
def truthy : InputVal → Bool
  | .vStr s => s ≠ ""
  | .vInt n => n ≠ 0
  | .vBool b => b
  | .vNull => false
  | .vArr _ => true
  | .vObj _ => true
  | .vCyclic => true

/-- JSON string escaping (quotes and backslashes) used by `JSON.stringify`. -/
def jsonEscape (s : String) : String :=
  String.mk (s.data.flatMap fun c =>
    if c = '"' ∨ c = '\\' then ['\\', c] else [c])

/-- Comma-join of serialized parts. -/
def joinComma : List String → String
  | [] => ""
  | [x] => x
  | x :: xs => x ++ "," ++ joinComma xs

mutual

/-- `JSON.stringify` on the embedded value domain: `none` exactly when the
value contains a `vCyclic` (the serializer throws). -/
def jsonStringify : InputVal → Option String
  | .vStr s => some ("\"" ++ jsonEscape s ++ "\"")
  | .vInt n => some (toString n)
  | .vBool b => some (cond b "true" "false")
  | .vNull => some "null"
  | .vArr xs =>
    match jsonStringifyList xs with
    | some parts => some ("[" ++ joinComma parts ++ "]")
    | none => none
  | .vObj kvs =>
    match jsonStringifyFields kvs with
    | some parts => some ("\x7b" ++ joinComma parts ++ "\x7d")
    | none => none
  | .vCyclic => none

/-- Serialize the elements of an array. -/
def jsonStringifyList : List InputVal → Option (List String)
  | [] => some []
  | x :: xs =>
    match jsonStringify x, jsonStringifyList xs with
    | some s, some rest => some (s :: rest)
    | _, _ => none

/-- Serialize the fields of an object. -/
def jsonStringifyFields : List (String × InputVal) → Option (List String)
  | [] => some []
  | (k, v) :: kvs =>
    match jsonStringify v, jsonStringifyFields kvs with
    | some s, some rest => some (("\"" ++ jsonEscape k ++ "\":" ++ s) :: rest)
    | _, _ => none

end

/-- `SecurityManager.calculateInputSize` (`src/security/manager.ts:323-333`):
UTF-8 byte length for strings; otherwise the byte length of the JSON
serialization, and `0` when serialization throws. -/
def calculateInputSize (input : InputVal) : Nat :=
  match input with
  | .vStr s => s.utf8ByteSize
  | _ =>
    match jsonStringify input with
    | some s => s.utf8ByteSize
    | none => 0

/-- One entry of `ValidationResult.errors` (the objects pushed by
`SecurityManager.validateInput`). -/
structure ValidationIssue where
  code : String
  message : String
  field : String
  value : Option Nat := none
  deriving DecidableEq, Repr

/-- `ValidationResult` (`src/types/security.ts`): validity flag and blocking
errors.  The non-blocking `warnings` channel (the dangerous-content regex
scan of `src/security/manager.ts:116-137`) never influences `valid` —
`valid` is `errors.length === 0` — and is elided from the embedding. -/
structure ValidationResult where
  valid : Bool
  errors : List ValidationIssue
  deriving DecidableEq, Repr

/-- `SecurityManager.validateInput` (`src/security/manager.ts:99-144`),
restricted to its blocking-error channel: the size check runs only when the
input and the configured `maxInputSize` are truthy, and pushes
`INPUT_TOO_LARGE` when the calculated size exceeds the maximum. -/
def validateInput (cfg : SecurityConfig) (input : InputVal) : ValidationResult :=
  let errors :=
    if truthy input && cfg.maxInputSize ≠ 0 then
      let inputSize := calculateInputSize input
      if inputSize > cfg.maxInputSize then
        [{ code := "INPUT_TOO_LARGE",
           message := "Input size " ++ toString inputSize ++
             " exceeds maximum " ++ toString cfg.maxInputSize,
           field := "input",
           value := some inputSize }]
      else []
    else []
  { valid := errors.isEmpty, errors := errors }

/-- The `arguments` object of a `run_shortcut` tool call: an optional name,
an optional input payload and an optional timeout override (`undefined`
fields are `none`). -/
structure RunShortcutArgs where
  name : Option String := none
  input : Option InputVal := none
  timeout : Option Nat := none

/-- `SecurityManager.validateRunShortcut` (`src/security/manager.ts:253-284`):
missing/empty name is a MEDIUM rejection; a name failing `isShortcutAllowed`
is a HIGH rejection; a provided input failing `validateInput` is a HIGH
rejection; otherwise the call is allowed at LOW risk.  JavaScript's
`!args?.name` is falsy both for an absent name and for the empty string. -/
def validateRunShortcut (cfg : SecurityConfig) (args : Option RunShortcutArgs) :
    SecurityResult :=
  match args.bind (·.name) with
  | none =>
    { allowed := false, reason := some "Shortcut name is required",
      riskLevel := SecurityRiskLevel.MEDIUM }
  | some name =>
    if name = "" then
      { allowed := false, reason := some "Shortcut name is required",
        riskLevel := SecurityRiskLevel.MEDIUM }
    else if !isShortcutAllowed cfg name then
      { allowed := false,
        reason := some ("Shortcut \"" ++ name ++ "\" is not allowed"),
        riskLevel := SecurityRiskLevel.HIGH }
    else
      match (args.getD {}).input with
      | some input =>
        let inputValidation := validateInput cfg input
        if !inputValidation.valid then
          { allowed := false,
            reason := some ("Input validation failed: " ++
              (match inputValidation.errors.head? with
               | some e => e.message
               | none => "undefined")),
            riskLevel := SecurityRiskLevel.HIGH }
        else
          { allowed := true, riskLevel := SecurityRiskLevel.LOW }
      | none => { allowed := true, riskLevel := SecurityRiskLevel.LOW }

/-- The `params` object of an MCP request: tool name and tool arguments
(either may be absent). -/
structure ToolCallParams where
  name : Option String := none
  arguments : Option RunShortcutArgs := none

/-- An MCP request as consumed by `SecurityManager.validateRequest`
(`src/types/mcp.ts`): `method` and `params` may each be absent, and an empty
`method` string is falsy. -/
structure MCPRequest where
  method : Option String := none
  params : Option ToolCallParams := none

/-- `SecurityManager.validateToolCall` (`src/security/manager.ts:224-251`):
a missing/empty tool name is a MEDIUM rejection; `run_shortcut` is delegated
to `validateRunShortcut`; `list_shortcuts` / `get_shortcut_info` are allowed
at LOW risk; any other tool is a MEDIUM rejection. -/
def validateToolCall (cfg : SecurityConfig) (params : ToolCallParams) :
    SecurityResult :=
  match params.name with
  | none =>
    { allowed := false, reason := some "Tool name is required",
      riskLevel := SecurityRiskLevel.MEDIUM }
  | some name =>
    if name = "" then
      { allowed := false, reason := some "Tool name is required",
        riskLevel := SecurityRiskLevel.MEDIUM }
    else if name = "run_shortcut" then
      validateRunShortcut cfg params.arguments
    else if name = "list_shortcuts" ∨ name = "get_shortcut_info" then
      { allowed := true, riskLevel := SecurityRiskLevel.LOW }
    else
      { allowed := false, reason := some ("Unknown tool: " ++ name),
        riskLevel := SecurityRiskLevel.MEDIUM }

/-- `SecurityManager.validateMethod` (`src/security/manager.ts:207-222`). -/
def validateMethod (cfg : SecurityConfig) (method : String)
    (params : ToolCallParams) : SecurityResult :=
  if method = "tools/call" then
    validateToolCall cfg params
  else if method = "tools/list" then
    { allowed := true, riskLevel := SecurityRiskLevel.LOW }
  else
    { allowed := false, reason := some ("Unknown method: " ++ method),
      riskLevel := SecurityRiskLevel.MEDIUM }

/-- `SecurityManager.validateRequest` (`src/security/manager.ts:27-65`):
structural check, then (when enabled) the rate-limit admission for the fixed
client identity `"default"`, then method-specific validation; an allowed
request is reported at LOW risk.  `now` supplies `Date.now()` and the
returned tracker is the mutated `rateLimitTracker` state. -/
def validateRequest (cfg : SecurityConfig) (tracker : RateTracker) (now : Int)
    (request : MCPRequest) : SecurityResult × RateTracker :=
  match request.method, request.params with
  | some method, some params =>
    if method = "" then
      ({ allowed := false, reason := some "Invalid request format",
         riskLevel := SecurityRiskLevel.MEDIUM }, tracker)
    else
      let rateStep :=
        if cfg.enableRateLimit then checkRateLimit cfg tracker "default" now
        else ({ allowed := true, riskLevel := SecurityRiskLevel.LOW }, tracker)
      if !rateStep.1.allowed then
        rateStep
      else
        let methodResult := validateMethod cfg method params
        if !methodResult.allowed then
          (methodResult, rateStep.2)
        else
          ({ allowed := true, riskLevel := SecurityRiskLevel.LOW }, rateStep.2)
  | _, _ =>
    ({ allowed := false, reason := some "Invalid request format",
       riskLevel := SecurityRiskLevel.MEDIUM }, tracker)

/-- An entry of the audit ledger (`AuditEntry` in `src/types/security.ts`,
constructed by `SecurityManager.logExecution`). -/
structure AuditEntry where
  id : String
  timestamp : Int
  operation : String
  shortcutName : String
  input : InputVal
  success : Bool
  executionTime : Int
  error : Option String
  riskLevel : SecurityRiskLevel

/-- The execution outcome details passed to `logExecution`. -/
structure ExecutionDetails where
  input : InputVal
  success : Bool
  executionTime : Int
  error : Option String := none

/-- `SecurityManager.assessRiskLevel` (`src/security/manager.ts:335-352`). -/
def assessRiskLevel (shortcutName : String) (details : ExecutionDetails) :
    SecurityRiskLevel :=
  if isSystemShortcut shortcutName then SecurityRiskLevel.HIGH
  else if !details.success then SecurityRiskLevel.MEDIUM
  else if details.executionTime > 30000 then SecurityRiskLevel.MEDIUM
  else SecurityRiskLevel.LOW

/-- The audit entry built at `src/security/manager.ts:181-191`;
`genId` and `nowTs` supply `generateId()` and `new Date()`. -/
def mkAuditEntry (cfg : SecurityConfig) (genId : String) (nowTs : Int)
    (shortcutName : String) (details : ExecutionDetails) : AuditEntry :=
  { id := genId,
    timestamp := nowTs,
    operation := "shortcut_execution",
    shortcutName := shortcutName,
    input := if cfg.logExecutions then details.input else .vStr "[NOT_LOGGED]",
    success := details.success,
    executionTime := details.executionTime,
    error := details.error,
    riskLevel := assessRiskLevel shortcutName details }

/-- `SecurityManager.logExecution` (`src/security/manager.ts:180-205`):
append the entry, then keep only the most recent 1000 entries
(`auditLog.slice(-1000)` = drop everything before the last 1000). -/
def logExecution (cfg : SecurityConfig) (genId : String) (nowTs : Int)
    (auditLog : List AuditEntry) (shortcutName : String)
    (details : ExecutionDetails) : List AuditEntry :=
  let entry := mkAuditEntry cfg genId nowTs shortcutName details
  let auditLog := auditLog ++ [entry]
  if auditLog.length > 1000 then auditLog.drop (auditLog.length - 1000)
  else auditLog

/-- `CacheEntry<T>` (`src/types/shortcuts.ts`): payload, creation timestamp,
time-to-live. -/
structure CacheEntry (α : Type) where
  data : α
  timestamp : Int
  ttl : Int

/-- `ShortcutManager.isCacheExpired` (`src/shortcuts/manager.ts:352-354`):
an entry is expired when its age strictly exceeds its ttl. -/
def isCacheExpired (now : Int) (entry : CacheEntry α) : Bool :=
  now - entry.timestamp > entry.ttl

/-- The `shortcutsCache` map (`Map<string, CacheEntry<...>>`), embedded as a
function to optional entries. -/
def CacheMap (α : Type) : Type := String → Option (CacheEntry α)

/-- The `ShortcutConfig` slice consumed by `ShortcutManager`. -/
structure ShortcutConfig where
  enableCache : Bool
  cacheTimeout : Int
  defaultTimeout : Nat

/-- Outcome of one `listShortcuts` call: the returned data, the cache state
after the call, and whether the call was a cache hit (the `cacheStats`
accounting). -/
structure ListOutcome (α : Type) where
  result : α
  cache : CacheMap α
  hit : Bool

/-- `ShortcutManager.listShortcuts` (`src/shortcuts/manager.ts:59-85`) on the
filterless path (`filter = undefined`, where `applyFilter` at lines 279-280
returns its argument unchanged): return the cached data when caching is
enabled and a non-expired entry exists under the key; otherwise discover
(the external `shortcuts list` enumeration, supplied here as `discovered`)
and, when caching is enabled, store it under the key with
`ttl = cacheTimeout`. -/
def listShortcuts (cfg : ShortcutConfig) (cache : CacheMap α)
    (cacheKey : String) (now : Int) (discovered : α) : ListOutcome α :=
  let cachedFresh : Option α :=
    if cfg.enableCache then
      match cache cacheKey with
      | some cached =>
        if isCacheExpired now cached then none else some cached.data
      | none => none
    else none
  match cachedFresh with
  | some data => { result := data, cache := cache, hit := true }
  | none =>
    let newCache : CacheMap α :=
      if cfg.enableCache then
        fun k =>
          if k = cacheKey then
            some { data := discovered, timestamp := now, ttl := cfg.cacheTimeout }
          else cache k
      else cache
    { result := discovered, cache := newCache, hit := false }

/-- The `MCPError` subclasses raised by `ShortcutManager`
(`src/types/shortcut-builder.ts:147-215`, the error-classes segment):
`ShortcutNotFoundError`, `ExecutionError` and `TimeoutError`.  Each carries
the `Error` message given at construction. -/
inductive ExecError where
  | shortcutNotFound (message : String)
  | executionError (message : String)
  | timeoutError (message : String)

/-- The `code` field of each class
(`src/types/shortcut-builder.ts:171-184`): `SHORTCUT_NOT_FOUND`,
`EXECUTION_ERROR`, `EXECUTION_TIMEOUT`. -/
def ExecError.code : ExecError → String
  | .shortcutNotFound _ => "SHORTCUT_NOT_FOUND"
  | .executionError _ => "EXECUTION_ERROR"
  | .timeoutError _ => "EXECUTION_TIMEOUT"

/-- The `httpStatus` field of each class
(`src/types/shortcut-builder.ts:171-184`): 404, 500, 408. -/
def ExecError.httpStatus : ExecError → Nat
  | .shortcutNotFound _ => 404
  | .executionError _ => 500
  | .timeoutError _ => 408

/-- The human-readable message of an error (`error.message`). -/
def ExecError.message : ExecError → String
  | .shortcutNotFound m => m
  | .executionError m => m
  | .timeoutError m => m

/-- Behaviour of one external `shortcuts run` invocation: how many
milliseconds after its start it settles, and whether it settles with a
stdout string or with a failure message. -/
structure InvocationBehavior where
  completesAt : Nat
  outcome : Except String String

/-- `ShortcutManager.executeWithTimeout` (`src/shortcuts/manager.ts:320-339`):
the invocation races a timer that fires after `timeoutMs`; the invocation
wins exactly when it settles strictly before the timer, otherwise the timer's
rejection with a `TimeoutError` is the result and the in-flight invocation is
abandoned.  An invocation failure is wrapped as an `ExecutionError`
(`Command failed: ...`). -/
def executeWithTimeout (timeoutMs : Nat) (inv : InvocationBehavior) :
    Except ExecError String :=
  if inv.completesAt < timeoutMs then
    match inv.outcome with
    | .ok stdout => .ok stdout
    | .error msg => .error (.executionError ("Command failed: " ++ msg))
  else
    .error (.timeoutError ("Execution timeout after " ++ toString timeoutMs ++ "ms"))

/-- `ExecutionRequest` (`src/types/shortcuts.ts`): target name, optional
input, optional timeout override. -/
structure ExecutionRequest where
  name : String
  input : Option InputVal := none
  timeout : Option Nat := none

/-- `ExecutionMetadata` as populated by `executeShortcut`. -/
structure ExecutionMetadata where
  shortcutName : String
  startTime : Int
  endTime : Int
  inputSize : Nat
  outputSize : Nat
  warningsCount : Nat
  errorsCount : Nat

/-- `ExecutionResult` (`src/types/shortcuts.ts`). -/
structure ExecutionResult where
  success : Bool
  output : Option InputVal := none
  error : Option String := none
  executionTime : Int
  metadata : ExecutionMetadata

/-- `ShortcutManager.parseOutput` (`src/shortcuts/manager.ts:310-318`).
The embedding keeps the fall-back branch (trimmed raw text); the
attempted `JSON.parse` of the raw stdout is elided — no verified property
depends on the parsed structure of a successful output. -/
def parseOutput (output : String) : InputVal :=
  .vStr output.trim

/-- `metadata.inputSize` (`src/shortcuts/manager.ts:173,199`):
`input ? JSON.stringify(input).length : 0` (UTF-16 length of the
serialization; `0` for an absent or falsy input). -/
def metadataInputSize (input : Option InputVal) : Nat :=
  match input with
  | some i => if truthy i then ((jsonStringify i).getD "").length else 0
  | none => 0

/-- `ShortcutManager.executeShortcut` (`src/shortcuts/manager.ts:131-206`).
Environment inputs: `found` is whether `getShortcutInfo` resolves the name
(cache-first catalog lookup), `inv` the external invocation behaviour,
`startTime` the `Date.now()` at entry.  The model idealizes per-step
overhead to zero: the call settles `min inv.completesAt timeout` ms after
`startTime` (or immediately when the name does not resolve), which is the
`Date.now() - startTime` of the source. -/
def executeShortcut (cfg : ShortcutConfig) (req : ExecutionRequest)
    (found : Bool) (inv : InvocationBehavior) (startTime : Int) :
    ExecutionResult :=
  let timeout := req.timeout.getD cfg.defaultTimeout
  let attempt : Except ExecError String :=
    if !found then
      .error (.shortcutNotFound ("Shortcut \"" ++ req.name ++ "\" not found"))
    else
      executeWithTimeout timeout inv
  let settledAfter : Nat := if found then min inv.completesAt timeout else 0
  let executionTime : Int := Int.ofNat settledAfter
  match attempt with
  | .ok stdout =>
    { success := true,
      output := some (parseOutput stdout),
      executionTime := executionTime,
      metadata :=
        { shortcutName := req.name,
          startTime := startTime,
          endTime := startTime + executionTime,
          inputSize := metadataInputSize req.input,
          outputSize := stdout.length,
          warningsCount := 0,
          errorsCount := 0 } }
  | .error e =>
    { success := false,
      error := some e.message,
      executionTime := executionTime,
      metadata :=
        { shortcutName := req.name,
          startTime := startTime,
          endTime := startTime + executionTime,
          inputSize := metadataInputSize req.input,
          outputSize := 0,
          warningsCount := 0,
          errorsCount := 1 } }

/-- `args.timeout || this.config.shortcuts.defaultTimeout`
(`src/shortcuts/prompt-manager.ts:1468`): JavaScript `||` takes the default
both for an absent and for a zero (falsy) timeout. -/
def resolveTimeout (shCfg : ShortcutConfig) (t : Option Nat) : Nat :=
  match t with
  | some t => if t = 0 then shCfg.defaultTimeout else t
  | none => shCfg.defaultTimeout

/-- `ShortcutMCPServer`'s guarded execution pipeline
(`src/shortcuts/prompt-manager.ts:1158-1789`): the `CallToolRequestSchema`
handler (lines 1353-1406) calls `SecurityManager.validateRequest` and throws
on rejection, then routes by tool name — only `run_shortcut` reaches
`handleRunShortcut` (lines 1453-1498), every other tool runs no shortcut and
appends nothing to the audit log.  `handleRunShortcut` throws on a falsy
`args.name`, throws when `isShortcutAllowed` refuses the name, calls
`ShortcutManager.executeShortcut` with `args.timeout || defaultTimeout`
(line 1465), throws on `!result.success` (lines 1471-1473) — **before** the
audit call — and only then calls `SecurityManager.logExecution` with
`{ input, executionTime, success }` and no error field (lines 1476-1480).
Every throw is caught by the handler's outer `catch` (lines 1388-1405),
which returns an error response.  The model returns the `ExecutionResult`
produced by `executeShortcut` (`none` when execution is never reached),
the rate tracker after the gate, and the audit log. -/
def runPipeline (secCfg : SecurityConfig) (shCfg : ShortcutConfig)
    (tracker : RateTracker) (auditLog : List AuditEntry) (req : MCPRequest)
    (now : Int) (found : Bool) (inv : InvocationBehavior) (genId : String) :
    Option ExecutionResult × RateTracker × List AuditEntry :=
  let gate := validateRequest secCfg tracker now req
  if !gate.1.allowed then
    (none, gate.2, auditLog)
  else if (req.params.getD {}).name.getD "" ≠ "run_shortcut" then
    (none, gate.2, auditLog)
  else
    let args := (req.params.getD {}).arguments.getD {}
    let argName := args.name.getD ""
    if argName = "" then
      (none, gate.2, auditLog)
    else if !isShortcutAllowed secCfg argName then
      (none, gate.2, auditLog)
    else
      let result := executeShortcut shCfg
        { name := argName, input := args.input,
          timeout := some (resolveTimeout shCfg args.timeout) }
        found inv now
      if !result.success then
        (some result, gate.2, auditLog)
      else
        let details : ExecutionDetails :=
          { input := args.input.getD .vNull,
            success := result.success,
            executionTime := result.executionTime,
            error := none }
        (some result, gate.2,
          logExecution secCfg genId now auditLog argName details)

/-! ## Regex scanners

The four `filterOutput` redaction regexes and the four `sanitizeInput`
injection-stripping regexes are deterministic (no backtracking can change
their outcome), so each embeds as a scanner: try the pattern at the current
position; on a match emit the replacement and resume after the matched span,
otherwise keep one character and advance — exactly the semantics of
JavaScript `String.replace` with a `/g` regex.  The scanners run on
`List Char` with a fuel argument equal to the input length, which keeps them
structurally recursive (every match consumes at least one character). -/

/-- JavaScript `\s` (the regex whitespace class). -/
def jsWhitespaceChars : List Char :=
  [' ', '\t', '\n', '\r', '\u000B', '\u000C', '\u00A0', '\u1680',
   '\u2000', '\u2001', '\u2002', '\u2003', '\u2004', '\u2005', '\u2006',
   '\u2007', '\u2008', '\u2009', '\u200A', '\u2028', '\u2029', '\u202F',
   '\u205F', '\u3000', '\uFEFF']

/-- Membership in JavaScript `\s`; its negation is `\S`. -/
def isJsSpace (c : Char) : Bool := jsWhitespaceChars.contains c

/-- JavaScript `\w` (ASCII letters, digits, underscore). -/
def isWordChar (c : Char) : Bool :=
  ('a' ≤ c ∧ c ≤ 'z') ∨ ('A' ≤ c ∧ c ≤ 'Z') ∨ ('0' ≤ c ∧ c ≤ '9') ∨ c = '_'

/-- Case-insensitive literal match: strip the pattern `kw` (given in
lowercase; `/i` folds the subject with `Char.toLower`, which agrees with
JavaScript on ASCII) off the front of `s`, returning the remainder. -/
def stripKw : List Char → List Char → Option (List Char)
  | [], s => some s
  | _ :: _, [] => none
  | k :: ks, c :: cs => if c.toLower = k then stripKw ks cs else none

/-- Matcher for `kw\s*[:=]\s*\S+` (the shape of all four `filterOutput`
redaction regexes, `src/security/manager.ts:171-174`): the keyword, optional
whitespace, a colon or equals sign, optional whitespace, then a non-empty
run of non-whitespace.  Returns the remainder after the matched span. -/
def tryRedactMatch (kw : List Char) (s : List Char) : Option (List Char) :=
  match stripKw kw s with
  | none => none
  | some s1 =>
    match s1.dropWhile isJsSpace with
    | [] => none
    | c :: s3 =>
      if c = ':' ∨ c = '=' then
        let s4 := s3.dropWhile isJsSpace
        if (s4.takeWhile (fun d => !isJsSpace d)).isEmpty then none
        else some (s4.dropWhile (fun d => !isJsSpace d))
      else none

/-- Generic `/g`-replace scanner: at each position try the matcher; on a
match emit `rep` and resume after the span, otherwise keep the character.
`fuel` is the length of the scanned input (every match consumes at least
one character, so the fuel never runs out on the wrapper's call). -/
def scanReplaceAux (m : List Char → Option (List Char)) (rep : List Char) :
    Nat → List Char → List Char
  | 0, s => s
  | _ + 1, [] => []
  | fuel + 1, c :: rest =>
    match m (c :: rest) with
    | some r => rep ++ scanReplaceAux m rep fuel r
    | none => c :: scanReplaceAux m rep fuel rest

/-- JavaScript `s.replace(pattern, rep)` for a `/g` pattern embodied by the
matcher `m`. -/
def scanReplace (m : List Char → Option (List Char)) (rep : List Char)
    (s : List Char) : List Char :=
  scanReplaceAux m rep s.length s

/-- The replacement literal of a redaction regex:
`'password: [REDACTED]'` is the keyword followed by `": [REDACTED]"`. -/
def redactionCanon (kw : List Char) : List Char := kw ++ ": [REDACTED]".data

/-- One redaction pass `output.replace(/kw\s*[:=]\s*\S+/gi, 'kw: [REDACTED]')`. -/
def redactKw (kw : List Char) (s : List Char) : List Char :=
  scanReplace (tryRedactMatch kw) (redactionCanon kw) s

/-- `SecurityManager.filterOutput` on strings
(`src/security/manager.ts:167-178`): the four redaction passes in source
order — password, token, key, secret. -/
def filterOutputString (s : String) : String :=
  String.mk (redactKw "secret".data (redactKw "key".data
    (redactKw "token".data (redactKw "password".data s.data))))

/-- `SecurityManager.filterOutput` (`src/security/manager.ts:167-178`):
strings are redacted, every other value is returned unchanged. -/
def filterOutput : InputVal → InputVal
  | .vStr s => .vStr (filterOutputString s)
  | v => v

/-- Matcher for the script-tag regex
`<script\b[^<]*(?:(?!<\/script>)<[^<]*)*<\/script>` (deterministic loop:
skip to the next `<`; if it opens `</script>` the match closes, otherwise
consume it and continue).  Returns the remainder after `</script>`. -/
def scriptLoopAux : Nat → List Char → Option (List Char)
  | 0, _ => none
  | fuel + 1, s =>
    let s1 := s.dropWhile (fun c => c ≠ '<')
    match stripKw "</script>".data s1 with
    | some r => some r
    | none =>
      match s1 with
      | _ :: s2 => scriptLoopAux fuel s2
      | [] => none

/-- The script-tag body/close loop started on the text after `<script\b`. -/
def scriptLoop (s : List Char) : Option (List Char) :=
  scriptLoopAux s.length s

/-- Matcher for the whole script-tag regex: `<script`, a word boundary
(`\b` after the word character `t`: the next character, if any, is not a
word character), then the body/close loop. -/
def tryScriptMatch (s : List Char) : Option (List Char) :=
  match stripKw "<script".data s with
  | none => none
  | some s0 =>
    if (match s0 with | c :: _ => isWordChar c | [] => false) then none
    else scriptLoop s0

/-- Matcher for the inline-event-handler regex `on\w+\s*=`. -/
def tryEventHandlerMatch (s : List Char) : Option (List Char) :=
  match stripKw "on".data s with
  | none => none
  | some s1 =>
    if (s1.takeWhile isWordChar).isEmpty then none
    else
      match (s1.dropWhile isWordChar).dropWhile isJsSpace with
      | c :: s3 => if c = '=' then some s3 else none
      | [] => none

/-- `SecurityManager.sanitizeInput` on strings
(`src/security/manager.ts:147-154`): remove script tags, `javascript:`
URIs, `vbscript:` URIs and inline event handlers, in source order. -/
def sanitizeString (s : String) : String :=
  String.mk
    (scanReplace tryEventHandlerMatch []
      (scanReplace (stripKw "vbscript:".data) []
        (scanReplace (stripKw "javascript:".data) []
          (scanReplace tryScriptMatch [] s.data))))

mutual

/-- `SecurityManager.sanitizeInput` (`src/security/manager.ts:146-165`):
strings are rewritten by the four removals; non-null objects — arrays
included — are rebuilt as plain objects from their `Object.entries`
(an array contributes its index strings `"0"`, `"1"`, … as keys), with every
value sanitized recursively; all other values are returned unchanged.
On a cyclic value the source recursion does not terminate; the embedding
returns the `vCyclic` marker unchanged (no claim touches that case). -/
def sanitizeInput : InputVal → InputVal
  | .vStr s => .vStr (sanitizeString s)
  | .vArr xs => .vObj (sanitizeArrayEntries 0 xs)
  | .vObj kvs => .vObj (sanitizeObjectEntries kvs)
  | v => v

/-- `Object.entries` of an array, each value sanitized: index keys from `i`. -/
def sanitizeArrayEntries (i : Nat) : List InputVal → List (String × InputVal)
  | [] => []
  | x :: xs => (toString i, sanitizeInput x) :: sanitizeArrayEntries (i + 1) xs

/-- `Object.entries` of an object, each value sanitized. -/
def sanitizeObjectEntries : List (String × InputVal) → List (String × InputVal)
  | [] => []
  | (k, v) :: kvs => (k, sanitizeInput v) :: sanitizeObjectEntries kvs

end

mutual

/-- The strings reachable in a value, in traversal order. -/
def listStrings : InputVal → List String
  | .vStr s => [s]
  | .vArr xs => listStringsArr xs
  | .vObj kvs => listStringsObj kvs
  | _ => []

/-- The strings reachable in an array's elements. -/
def listStringsArr : List InputVal → List String
  | [] => []
  | x :: xs => listStrings x ++ listStringsArr xs

/-- The strings reachable in an object's values. -/
def listStringsObj : List (String × InputVal) → List String
  | [] => []
  | (_, v) :: kvs => listStrings v ++ listStringsObj kvs

end

/-- One `logExecution` call (its per-call environment and arguments). -/
structure LogCall where
  genId : String
  nowTs : Int
  shortcutName : String
  details : ExecutionDetails

/-- A sequence of `logExecution` calls applied in order. -/
def logMany (cfg : SecurityConfig) (log : List AuditEntry)
    (calls : List LogCall) : List AuditEntry :=
  calls.foldl
    (fun acc c => logExecution cfg c.genId c.nowTs acc c.shortcutName c.details)
    log

/-- The entry constructed by one `LogCall`. -/
def LogCall.entry (cfg : SecurityConfig) (c : LogCall) : AuditEntry :=
  mkAuditEntry cfg c.genId c.nowTs c.shortcutName c.details

theorem logExecution_eq_drop (cfg : SecurityConfig) (genId : String)
    (nowTs : Int) (log : List AuditEntry) (name : String)
    (details : ExecutionDetails) :
    logExecution cfg genId nowTs log name details =
      (log ++ [mkAuditEntry cfg genId nowTs name details]).drop
        ((log.length + 1) - 1000) := by
  unfold logExecution
  by_cases h : log.length + 1 > 1000
  · simp only [List.length_append, List.length_cons, List.length_nil]
    rw [if_pos (by simpa using h)]
  · simp only [List.length_append, List.length_cons, List.length_nil]
    rw [if_neg (by simpa using h)]
    have : log.length + 1 - 1000 = 0 := by omega
    simp [this]

theorem logMany_eq_drop (cfg : SecurityConfig) (calls : List LogCall) :
    logMany cfg [] calls =
      (calls.map (LogCall.entry cfg)).drop (calls.length - 1000) := by
  induction calls using List.reverseRecOn with
  | nil => simp [logMany]
  | append_singleton calls c ih =>
    have step : logMany cfg [] (calls ++ [c]) =
        logExecution cfg c.genId c.nowTs (logMany cfg [] calls)
          c.shortcutName c.details := by
      simp [logMany]
    rw [step, ih, logExecution_eq_drop]
    have hlen : ((calls.map (LogCall.entry cfg)).drop
        (calls.length - 1000)).length =
        calls.length - (calls.length - 1000) := by
      simp
    rw [hlen]
    set L := calls.map (LogCall.entry cfg) with hL
    have hLlen : L.length = calls.length := by simp [hL]
    have hlist : List.map (LogCall.entry cfg) (calls ++ [c]) =
        L ++ [mkAuditEntry cfg c.genId c.nowTs c.shortcutName c.details] := by
      simp [hL, LogCall.entry]
    have hlen2 : (calls ++ [c]).length - 1000 = calls.length + 1 - 1000 := by
      simp
    rw [hlist, hlen2]
    by_cases h : calls.length ≤ 1000
    · have h0 : calls.length - 1000 = 0 := by omega
      simp only [h0, List.drop_zero]
      congr 1
    · have h1000 : calls.length - (calls.length - 1000) = 1000 := by omega
      rw [h1000]
      have hdrop1 : (1000 : ℕ) + 1 - 1000 = 1 := by norm_num
      rw [hdrop1]
      have hle : (1 : ℕ) ≤ (L.drop (calls.length - 1000)).length := by
        simp [hLlen]; omega
      rw [List.drop_append_of_le_length hle, List.drop_drop]
      have hle2 : calls.length + 1 - 1000 ≤ L.length := by
        rw [hLlen]; omega
      rw [List.drop_append_of_le_length hle2,
        show calls.length - 1000 + 1 = calls.length + 1 - 1000 from by omega]

/-- C4 — The audit log never holds more than 1000 entries and eviction is
FIFO: every `logExecution` call preserves the `≤ 1000` bound, and appending
1001 entries in sequence from an empty log leaves exactly the entries of
calls 2…1001 (the 1st, oldest entry evicted; the 1001st present as the last
element), 1000 entries in all. -/
theorem audit_capacity_fifo (cfg : SecurityConfig) (genId : String)
    (nowTs : Int) (log : List AuditEntry) (name : String)
    (details : ExecutionDetails) (calls : List LogCall)
    (hlog : log.length ≤ 1000) (hcalls : calls.length = 1001) :
    (logExecution cfg genId nowTs log name details).length ≤ 1000 ∧
    logMany cfg [] calls = (calls.map (LogCall.entry cfg)).drop 1 ∧
    (logMany cfg [] calls).length = 1000 ∧
    (logMany cfg [] calls).getLast? =
      (calls.map (LogCall.entry cfg)).getLast? := by
  have hmain := logMany_eq_drop cfg calls
  have hdrop : calls.length - 1000 = 1 := by omega
  refine ⟨?_, ?_, ?_, ?_⟩
  · rw [logExecution_eq_drop]
    simp
    omega
  · rw [hmain, hdrop]
  · rw [hmain, hdrop]
    simp [hcalls]
  · rw [hmain, hdrop, List.getLast?_drop]
    rw [if_neg (by simp [hcalls])]

/-- A sequence of rate-limit admission checks for one client: the list of
per-request decisions and the final tracker state. -/
def admitTrace (cfg : SecurityConfig) (clientId : String) :
    List Int → RateTracker → List SecurityResult × RateTracker
  | [], tr => ([], tr)
  | t :: ts, tr =>
    let step := checkRateLimit cfg tr clientId t
    let rest := admitTrace cfg clientId ts step.2
    (step.1 :: rest.1, rest.2)

theorem checkRateLimit_other (cfg : SecurityConfig) (tr : RateTracker)
    (c now : _) (c' : String) (h : c' ≠ c) :
    (checkRateLimit cfg tr c now).2 c' = tr c' := by
  simp only [checkRateLimit]
  split
  · rfl
  · simp [h]

theorem admitTrace_other (cfg : SecurityConfig) (c : String) (ts : List Int) :
    ∀ (tr : RateTracker) (c' : String), c' ≠ c →
      (admitTrace cfg c ts tr).2 c' = tr c' := by
  induction ts with
  | nil => intro tr c' _; rfl
  | cons t ts ih =>
    intro tr c' h
    show (admitTrace cfg c ts (checkRateLimit cfg tr c t).2).2 c' = tr c'
    rw [ih _ _ h, checkRateLimit_other _ _ _ _ _ h]

theorem admitTrace_all_kept (cfg : SecurityConfig) (c : String) :
    ∀ (ts : List Int) (tr : RateTracker),
      (tr c ++ ts).Pairwise
        (fun a b => b - a < cfg.rateLimit.windowMs) →
      (tr c).length + ts.length ≤ cfg.rateLimit.maxRequests →
      (∀ r ∈ (admitTrace cfg c ts tr).1, r.allowed = true) ∧
      (admitTrace cfg c ts tr).2 c = tr c ++ ts := by
  intro ts
  induction ts with
  | nil =>
    intro tr _ _
    refine ⟨?_, ?_⟩
    · intro r hr
      simp [admitTrace] at hr
    · simp [admitTrace]
  | cons t ts ih =>
    intro tr hpair hlen
    have hcross := (List.pairwise_append.mp hpair).2.2
    have hfilter : (tr c).filter
        (fun time => decide (t - time < cfg.rateLimit.windowMs)) = tr c := by
      refine List.filter_eq_self.mpr fun x hx => ?_
      simpa using hcross x hx t (by simp)
    have hlt : ¬ ((tr c).length ≥ cfg.rateLimit.maxRequests) := by
      simp only [List.length_cons] at hlen
      omega
    have hstep : checkRateLimit cfg tr c t =
        ({ allowed := true, riskLevel := SecurityRiskLevel.LOW },
          fun c'' => if c'' = c then tr c ++ [t] else tr c'') := by
      simp only [checkRateLimit]
      rw [hfilter, if_neg hlt]
    have htr' : (fun c'' => if c'' = c then tr c ++ [t] else tr c'') c =
        tr c ++ [t] := by simp
    have hassoc : (tr c ++ [t]) ++ ts = tr c ++ (t :: ts) := by simp
    have ihspec := ih (fun c'' => if c'' = c then tr c ++ [t] else tr c'')
      (by rw [htr', hassoc]; exact hpair)
      (by rw [htr']; simp only [List.length_append, List.length_cons,
          List.length_nil] at hlen ⊢; omega)
    constructor
    · intro r hr
      simp only [admitTrace, List.mem_cons] at hr
      rcases hr with h | h
      · rw [h, hstep]
      · rw [hstep] at h
        exact ihspec.1 r h
    · simp only [admitTrace]
      rw [hstep]
      rw [ihspec.2, htr', hassoc]

/-- C2 — Sliding-window rate limiting: with window `W` and limit `N ≥ 1`,
`N` monotone requests from one client are all admitted; an `(N+1)`-th
request arriving within `W` ms of the first is denied at MEDIUM risk
without mutating the tracker; a request arriving at least `W` ms after
every earlier request is admitted; a client with an empty window is treated
as having zero prior requests (admitted, window becomes `[now]`); and the
checks of client `c` never touch the window of a different client `c'`. -/
theorem rateLimit_sliding_window (cfg : SecurityConfig) (c c' : String)
    (ts : List Int) (t0 now now₂ now₃ : Int) (tr trArb : RateTracker)
    (hN : 1 ≤ cfg.rateLimit.maxRequests)
    (hlen : ts.length = cfg.rateLimit.maxRequests)
    (hsort : ts.Sorted (· ≤ ·))
    (hhead : ts.head? = some t0)
    (hnow : ∀ t ∈ ts, t ≤ now)
    (hwin : now - t0 < cfg.rateLimit.windowMs)
    (hwait : ∀ t ∈ ts, cfg.rateLimit.windowMs ≤ now₂ - t)
    (hfresh : trArb c = [])
    (hc' : c' ≠ c) :
    (∀ r ∈ (admitTrace cfg c ts RateTracker.empty).1, r.allowed = true) ∧
    (checkRateLimit cfg (admitTrace cfg c ts RateTracker.empty).2 c now).1.allowed
      = false ∧
    (checkRateLimit cfg (admitTrace cfg c ts RateTracker.empty).2 c now).1.riskLevel
      = SecurityRiskLevel.MEDIUM ∧
    (checkRateLimit cfg (admitTrace cfg c ts RateTracker.empty).2 c now).2
      = (admitTrace cfg c ts RateTracker.empty).2 ∧
    (checkRateLimit cfg (admitTrace cfg c ts RateTracker.empty).2 c now₂).1.allowed
      = true ∧
    (checkRateLimit cfg trArb c now₃).1.allowed = true ∧
    (checkRateLimit cfg trArb c now₃).2 c = [now₃] ∧
    (admitTrace cfg c ts tr).2 c' = tr c' ∧
    (checkRateLimit cfg tr c now).2 c' = tr c' := by
  have ht0_le : ∀ t ∈ ts, t0 ≤ t := by
    cases ts with
    | nil => simp at hhead
    | cons a l =>
      have ha : a = t0 := by simpa using hhead
      intro t ht
      rcases List.mem_cons.mp ht with h | h
      · omega
      · have := List.rel_of_sorted_cons hsort t h
        omega
  have hpair : ts.Pairwise (fun a b => b - a < cfg.rateLimit.windowMs) := by
    refine List.Pairwise.imp_of_mem ?_ hsort
    intro a b ha hb hab
    have h1 := ht0_le a ha
    have h2 := hnow b hb
    omega
  have hempty : RateTracker.empty c = [] := rfl
  have hkept := admitTrace_all_kept cfg c ts RateTracker.empty
    (by rw [hempty]; simpa using hpair)
    (by rw [hempty]; simp [hlen])
  have hts : (admitTrace cfg c ts RateTracker.empty).2 c = ts := by
    have := hkept.2
    rwa [hempty, List.nil_append] at this
  have hfull : ts.filter
      (fun time => decide (now - time < cfg.rateLimit.windowMs)) = ts := by
    refine List.filter_eq_self.mpr fun x hx => ?_
    have := ht0_le x hx
    simp only [decide_eq_true_eq]
    omega
  have hdeny : checkRateLimit cfg (admitTrace cfg c ts RateTracker.empty).2 c now
      = ({ allowed := false,
           reason := some ("Rate limit exceeded: " ++
             toString cfg.rateLimit.maxRequests ++ " requests per " ++
             toString cfg.rateLimit.windowMs ++ "ms"),
           riskLevel := SecurityRiskLevel.MEDIUM },
          (admitTrace cfg c ts RateTracker.empty).2) := by
    simp only [checkRateLimit]
    rw [hts, hfull, if_pos (by rw [hlen])]
  have hnone : ts.filter
      (fun time => decide (now₂ - time < cfg.rateLimit.windowMs)) = [] := by
    rw [List.filter_eq_nil_iff]
    intro x hx
    have := hwait x hx
    simp only [decide_eq_true_eq]
    omega
  have hadmit2 : (checkRateLimit cfg (admitTrace cfg c ts RateTracker.empty).2
      c now₂).1.allowed = true := by
    simp only [checkRateLimit]
    rw [hts, hnone, if_neg (by simp only [List.length_nil]; omega)]
  have hfresh1 : checkRateLimit cfg trArb c now₃
      = ({ allowed := true, riskLevel := SecurityRiskLevel.LOW },
          fun c'' => if c'' = c then [now₃] else trArb c'') := by
    simp only [checkRateLimit]
    rw [hfresh]
    simp only [List.filter_nil, List.length_nil]
    rw [if_neg (by omega)]
    simp
  refine ⟨hkept.1, ?_, ?_, ?_, hadmit2, ?_, ?_, ?_, ?_⟩
  · rw [hdeny]
  · rw [hdeny]
  · rw [hdeny]
  · rw [hfresh1]
  · rw [hfresh1]; simp
  · exact admitTrace_other cfg c ts tr c' hc'
  · exact checkRateLimit_other cfg tr c now c' hc'

/-- A concrete security configuration for concrete instantiations
(a small window/limit so the scenarios stay readable). -/
def sampleSecCfg : SecurityConfig :=
  { blockedShortcuts := ["Dangerous"],
    allowSystemShortcuts := false,
    allowedPrefixes := [],
    maxInputSize := 1024,
    logExecutions := true,
    enableRateLimit := true,
    rateLimit := { windowMs := 1000, maxRequests := 2 } }

/-- Concrete execution details for concrete instantiations. -/
def sampleDetails : ExecutionDetails :=
  { input := .vStr "San Francisco", success := true, executionTime := 10 }

/-- 1001 identical `logExecution` calls. -/
def sampleCalls : List LogCall :=
  List.replicate 1001
    { genId := "audit_1", nowTs := 0, shortcutName := "Hello World",
      details := sampleDetails }

/-- Witness for C4 at a concrete log and a concrete 1001-call sequence. -/
theorem audit_capacity_fifo_witness :
    (logExecution sampleSecCfg "audit_1" 0 [] "Hello World"
        sampleDetails).length ≤ 1000 ∧
    logMany sampleSecCfg [] sampleCalls =
      (sampleCalls.map (LogCall.entry sampleSecCfg)).drop 1 ∧
    (logMany sampleSecCfg [] sampleCalls).length = 1000 ∧
    (logMany sampleSecCfg [] sampleCalls).getLast? =
      (sampleCalls.map (LogCall.entry sampleSecCfg)).getLast? :=
  audit_capacity_fifo sampleSecCfg "audit_1" 0 [] "Hello World" sampleDetails
    sampleCalls (by simp) (by simp only [sampleCalls, List.length_replicate])

/-- Witness for C2: window 1000 ms, limit 2, requests at 0 and 10 admitted,
a third request at 500 denied, a request at 2000 admitted again; fresh
client and client independence at concrete identities. -/
theorem rateLimit_sliding_window_witness :
    (∀ r ∈ (admitTrace sampleSecCfg "default" [0, 10] RateTracker.empty).1,
      r.allowed = true) ∧
    (checkRateLimit sampleSecCfg
      (admitTrace sampleSecCfg "default" [0, 10] RateTracker.empty).2
      "default" 500).1.allowed = false ∧
    (checkRateLimit sampleSecCfg
      (admitTrace sampleSecCfg "default" [0, 10] RateTracker.empty).2
      "default" 500).1.riskLevel = SecurityRiskLevel.MEDIUM ∧
    (checkRateLimit sampleSecCfg
      (admitTrace sampleSecCfg "default" [0, 10] RateTracker.empty).2
      "default" 500).2 =
      (admitTrace sampleSecCfg "default" [0, 10] RateTracker.empty).2 ∧
    (checkRateLimit sampleSecCfg
      (admitTrace sampleSecCfg "default" [0, 10] RateTracker.empty).2
      "default" 2000).1.allowed = true ∧
    (checkRateLimit sampleSecCfg RateTracker.empty "default" 7).1.allowed
      = true ∧
    (checkRateLimit sampleSecCfg RateTracker.empty "default" 7).2 "default"
      = [7] ∧
    (admitTrace sampleSecCfg "default" [0, 10] RateTracker.empty).2 "other"
      = RateTracker.empty "other" ∧
    (checkRateLimit sampleSecCfg RateTracker.empty "default" 500).2 "other"
      = RateTracker.empty "other" :=
  rateLimit_sliding_window sampleSecCfg "default" "other" [0, 10] 0 500 2000 7
    RateTracker.empty RateTracker.empty (by decide) (by decide) (by decide)
    rfl (by decide) (by decide) (by decide) rfl (by decide)

/-- A concrete shortcut-manager configuration. -/
def sampleShortcutCfg : ShortcutConfig :=
  { enableCache := true, cacheTimeout := 1000, defaultTimeout := 30000 }

/-- A concrete cache holding one entry (`ttl` 1000, written at time 0). -/
def sampleCache : CacheMap String :=
  fun k => if k = "shortcuts" then
    some { data := "cached", timestamp := 0, ttl := 1000 } else none

/-- Counterexample to C3 as stated: a `get` at elapsed time exactly equal to
the ttl (`now = 1000`, `ttl = 1000`) is a HIT — `isCacheExpired` uses a
strict comparison (`now - timestamp > ttl`), so the entry is returned,
contradicting "a get performed at elapsed time greater than or equal to T
behaves as a miss". -/
theorem cache_ttl_boundary_counterexample :
    isCacheExpired 1000
      ({ data := "cached", timestamp := 0, ttl := 1000 } : CacheEntry String)
      = false ∧
    (listShortcuts sampleShortcutCfg sampleCache "shortcuts" 1000 "fresh").result
      = "cached" ∧
    (listShortcuts sampleShortcutCfg sampleCache "shortcuts" 1000 "fresh").hit
      = true := by
  refine ⟨by decide, ?_, ?_⟩ <;> rfl

/-- C3 (amended) — Cache TTL correctness with the boundary on the hit side:
for an entry stored with ttl `T`, a `get` at elapsed time `≤ T` returns the
stored value unchanged and leaves the cache untouched (the entry is not
deleted on read), while a `get` at elapsed time `> T` behaves as a miss:
it returns the freshly discovered value and overwrites the entry for that
key with a new one stamped `now` (entries of other keys are untouched). -/
theorem cache_ttl_correctness (cfg : ShortcutConfig) (cache : CacheMap α)
    (key k' : String) (now : Int) (e : CacheEntry α) (fresh : α)
    (hen : cfg.enableCache = true) (hcache : cache key = some e)
    (hk' : k' ≠ key) :
    (now - e.timestamp ≤ e.ttl →
      listShortcuts cfg cache key now fresh =
        { result := e.data, cache := cache, hit := true }) ∧
    (e.ttl < now - e.timestamp →
      (listShortcuts cfg cache key now fresh).result = fresh ∧
      (listShortcuts cfg cache key now fresh).hit = false ∧
      (listShortcuts cfg cache key now fresh).cache key =
        some { data := fresh, timestamp := now, ttl := cfg.cacheTimeout } ∧
      (listShortcuts cfg cache key now fresh).cache k' = cache k') := by
  constructor
  · intro hle
    have hexp : isCacheExpired now e = false := by
      simp only [isCacheExpired, decide_eq_false_iff_not]
      omega
    simp only [listShortcuts, hen, if_true, hcache, hexp]
    rfl
  · intro hgt
    have hexp : isCacheExpired now e = true := by
      simp only [isCacheExpired, decide_eq_true_eq]
      omega
    simp only [listShortcuts, hen, if_true, hcache, hexp]
    refine ⟨?_, ?_, ?_, ?_⟩ <;> simp [hk']

/-- Witness for C3 (amended) at a concrete cache: a hit at `now = 1000`
(elapsed = ttl) and a miss with overwrite at `now = 1001`. -/
theorem cache_ttl_correctness_witness :
    ((1000 : Int) - 0 ≤ 1000 →
      listShortcuts sampleShortcutCfg sampleCache "shortcuts" 1000 "fresh" =
        { result := "cached", cache := sampleCache, hit := true }) ∧
    ((1000 : Int) < 1000 - 0 →
      (listShortcuts sampleShortcutCfg sampleCache "shortcuts" 1000 "fresh").result
        = "fresh" ∧
      (listShortcuts sampleShortcutCfg sampleCache "shortcuts" 1000 "fresh").hit
        = false ∧
      (listShortcuts sampleShortcutCfg sampleCache "shortcuts" 1000
        "fresh").cache "shortcuts" =
        some { data := "fresh", timestamp := 1000,
               ttl := sampleShortcutCfg.cacheTimeout } ∧
      (listShortcuts sampleShortcutCfg sampleCache "shortcuts" 1000
        "fresh").cache "other" = sampleCache "other") :=
  cache_ttl_correctness sampleShortcutCfg sampleCache "shortcuts" "other"
    1000 { data := "cached", timestamp := 0, ttl := 1000 } "fresh"
    rfl rfl (by decide)

/-- A configuration whose only restriction is an allow-prefix list. -/
def prefixCfg : SecurityConfig :=
  { blockedShortcuts := [],
    allowSystemShortcuts := true,
    allowedPrefixes := ["My"],
    maxInputSize := 1024,
    logExecutions := true,
    enableRateLimit := false,
    rateLimit := { windowMs := 1000, maxRequests := 10 } }

/-- Counterexample to C5 as stated: under a pure allow-prefix policy, the
name `"Other"` (not blocked, not system-classified) fails only the prefix
check, yet `validateRunShortcut` rejects it with riskLevel HIGH — not the
MEDIUM the claim assigns to prefix-mismatch rejections. -/
theorem prefix_mismatch_risk_counterexample :
    isShortcutAllowed prefixCfg "Other" = false ∧
    prefixCfg.blockedShortcuts.contains "Other" = false ∧
    prefixCfg.allowSystemShortcuts = true ∧
    (validateRunShortcut prefixCfg
      (some { name := some "Other" })).riskLevel = SecurityRiskLevel.HIGH ∧
    (validateRunShortcut prefixCfg
      (some { name := some "Other" })).riskLevel ≠ SecurityRiskLevel.MEDIUM := by
  decide

theorem isShortcutAllowed_false_iff (cfg : SecurityConfig) (name : String) :
    isShortcutAllowed cfg name = false ↔
      name ∈ cfg.blockedShortcuts ∨
      (cfg.allowSystemShortcuts = false ∧
        ∃ kw ∈ systemKeywords, strIncludes (strToLower name) kw = true) ∨
      (cfg.allowedPrefixes ≠ [] ∧
        ∀ p ∈ cfg.allowedPrefixes, strStartsWith name p = false) := by
  simp only [isShortcutAllowed, isSystemShortcut]
  split_ifs with h1 h2 h3 h4
  · simp only [eq_self_iff_true, true_iff]
    exact Or.inl (List.elem_iff.mp h1)
  · simp only [eq_self_iff_true, true_iff]
    rcases Bool.and_eq_true_iff.mp h2 with ⟨hns, hsys⟩
    refine Or.inr (Or.inl ⟨by simpa using hns, ?_⟩)
    simpa using List.any_eq_true.mp hsys
  · constructor
    · intro h; cases h
    · rintro (hmem | ⟨hns, kw, hkw, hinc⟩ | ⟨hne, hall⟩)
      · exact absurd (List.elem_iff.mpr hmem) h1
      · refine absurd ?_ h2
        rw [Bool.and_eq_true_iff]
        exact ⟨by simp [hns], List.any_eq_true.mpr ⟨kw, hkw, hinc⟩⟩
      · rcases List.any_eq_true.mp h4 with ⟨p, hp, hsw⟩
        rw [hall p hp] at hsw
        cases hsw
  · simp only [eq_self_iff_true, true_iff]
    refine Or.inr (Or.inr ⟨?_, ?_⟩)
    · intro hnil
      rw [hnil] at h3
      simp at h3
    · intro p hp
      by_contra hne
      exact (by simpa using h4 : ¬ _)
        (List.any_eq_true.mpr ⟨p, hp, by simpa using hne⟩)
  · constructor
    · intro h; cases h
    · rintro (hmem | ⟨hns, kw, hkw, hinc⟩ | ⟨hne, hall⟩)
      · exact absurd (List.elem_iff.mpr hmem) h1
      · refine absurd ?_ h2
        rw [Bool.and_eq_true_iff]
        exact ⟨by simp [hns], List.any_eq_true.mpr ⟨kw, hkw, hinc⟩⟩
      · refine absurd ?_ h3
        simp only [gt_iff_lt, List.length_pos_iff_ne_nil]
        exact hne

theorem validateRunShortcut_policy_high (cfg : SecurityConfig) (name : String)
    (inp : Option InputVal) (hname : name ≠ "")
    (hfail : isShortcutAllowed cfg name = false) :
    validateRunShortcut cfg (some { name := some name, input := inp }) =
      { allowed := false,
        reason := some ("Shortcut \"" ++ name ++ "\" is not allowed"),
        riskLevel := SecurityRiskLevel.HIGH } := by
  simp only [validateRunShortcut, Option.bind_eq_bind, Option.some_bind]
  rw [if_neg hname, hfail]
  rfl

/-- C5 (amended) — `isShortcutAllowed(name)` returns false exactly when the
name is on the block list, or (with `allowSystemShortcuts` off) the
lowercased name contains one of the fixed system keywords, or a non-empty
allow-prefix list matches no prefix of the name; and in `validateRequest`
terms every such rejection — the prefix-mismatch case included — carries
riskLevel HIGH (the MEDIUM level of the original claim does not occur
here). -/
theorem isShortcutAllowed_spec (cfg : SecurityConfig) (name : String)
    (inp : Option InputVal) (hname : name ≠ "")
    (hfail : isShortcutAllowed cfg name = false) :
    (isShortcutAllowed cfg name = false ↔
      name ∈ cfg.blockedShortcuts ∨
      (cfg.allowSystemShortcuts = false ∧
        ∃ kw ∈ systemKeywords, strIncludes (strToLower name) kw = true) ∨
      (cfg.allowedPrefixes ≠ [] ∧
        ∀ p ∈ cfg.allowedPrefixes, strStartsWith name p = false)) ∧
    validateRunShortcut cfg (some { name := some name, input := inp }) =
      { allowed := false,
        reason := some ("Shortcut \"" ++ name ++ "\" is not allowed"),
        riskLevel := SecurityRiskLevel.HIGH } :=
  ⟨isShortcutAllowed_false_iff cfg name,
   validateRunShortcut_policy_high cfg name inp hname hfail⟩

/-- Witness for C5 (amended) at the concrete allow-prefix configuration. -/
theorem isShortcutAllowed_spec_witness :
    (isShortcutAllowed prefixCfg "Other" = false ↔
      "Other" ∈ prefixCfg.blockedShortcuts ∨
      (prefixCfg.allowSystemShortcuts = false ∧
        ∃ kw ∈ systemKeywords, strIncludes (strToLower "Other") kw = true) ∨
      (prefixCfg.allowedPrefixes ≠ [] ∧
        ∀ p ∈ prefixCfg.allowedPrefixes, strStartsWith "Other" p = false)) ∧
    validateRunShortcut prefixCfg (some { name := some "Other", input := none }) =
      { allowed := false,
        reason := some ("Shortcut \"" ++ "Other" ++ "\" is not allowed"),
        riskLevel := SecurityRiskLevel.HIGH } :=
  isShortcutAllowed_spec prefixCfg "Other" none (by decide) (by decide)

/-- A configuration with a block list and a small input-size limit. -/
def blockCfg : SecurityConfig :=
  { blockedShortcuts := ["Bad"],
    allowSystemShortcuts := true,
    allowedPrefixes := [],
    maxInputSize := 4,
    logExecutions := true,
    enableRateLimit := false,
    rateLimit := { windowMs := 1000, maxRequests := 10 } }

/-- C6 — Security ordering: a `run_shortcut` request whose workflow name is
rejected by policy is refused with the policy (block-list) reason even when
its input also exceeds `maxInputSize`: the allow/block check runs before the
input-size check, so the result is the HIGH policy rejection and is
identical to what the same request without any input would produce. -/
theorem policy_check_precedes_input_size (cfg : SecurityConfig)
    (name : String) (input : InputVal) (hname : name ≠ "")
    (hblocked : isShortcutAllowed cfg name = false)
    (htruthy : truthy input = true) (hmax : cfg.maxInputSize ≠ 0)
    (hoversize : cfg.maxInputSize < calculateInputSize input) :
    (validateInput cfg input).valid = false ∧
    validateRunShortcut cfg (some { name := some name, input := some input }) =
      { allowed := false,
        reason := some ("Shortcut \"" ++ name ++ "\" is not allowed"),
        riskLevel := SecurityRiskLevel.HIGH } ∧
    validateRunShortcut cfg (some { name := some name, input := some input }) =
      validateRunShortcut cfg (some { name := some name, input := none }) := by
  have h1 := validateRunShortcut_policy_high cfg name (some input) hname hblocked
  have h2 := validateRunShortcut_policy_high cfg name none hname hblocked
  refine ⟨?_, h1, by rw [h1, h2]⟩
  simp only [validateInput, htruthy, hmax]
  rw [if_pos (by simp [hmax]), if_pos (by omega)]
  rfl

/-- Witness for C6: the blocked name `"Bad"` with the 5-byte input
`"12345"` against `maxInputSize = 4`. -/
theorem policy_check_precedes_input_size_witness :
    (validateInput blockCfg (.vStr "12345")).valid = false ∧
    validateRunShortcut blockCfg
      (some { name := some "Bad", input := some (.vStr "12345") }) =
      { allowed := false,
        reason := some ("Shortcut \"" ++ "Bad" ++ "\" is not allowed"),
        riskLevel := SecurityRiskLevel.HIGH } ∧
    validateRunShortcut blockCfg
      (some { name := some "Bad", input := some (.vStr "12345") }) =
      validateRunShortcut blockCfg (some { name := some "Bad", input := none }) :=
  policy_check_precedes_input_size blockCfg "Bad" (.vStr "12345")
    (by decide) (by decide) (by decide) (by decide) (by decide)

/-- C10 — An input whose JSON serialization throws is measured at size 0 by
`calculateInputSize` (the `catch` branch), so `validateInput` never reports
`INPUT_TOO_LARGE` for it, whatever `maxInputSize` is configured: the input
always passes the size check. -/
theorem unserializable_input_never_too_large (cfg : SecurityConfig)
    (input : InputVal) (h : jsonStringify input = none) :
    calculateInputSize input = 0 ∧
    (validateInput cfg input).errors = [] ∧
    (validateInput cfg input).valid = true := by
  have h0 : calculateInputSize input = 0 := by
    cases input with
    | vStr s => simp [jsonStringify] at h
    | vInt n => simp [jsonStringify] at h
    | vBool b => simp [jsonStringify] at h
    | vNull => simp [jsonStringify] at h
    | vArr xs => simp [calculateInputSize, h]
    | vObj kvs => simp [calculateInputSize, h]
    | vCyclic => simp [calculateInputSize, h]
  have herr : (validateInput cfg input).errors = [] := by
    simp only [validateInput, h0]
    split
    · simp
    · rfl
  refine ⟨h0, herr, ?_⟩
  simp only [validateInput] at herr ⊢
  rw [herr]
  rfl

/-- Witness for C10: a self-referential (cyclic) value against the sample
configuration. -/
theorem unserializable_input_never_too_large_witness :
    calculateInputSize .vCyclic = 0 ∧
    (validateInput sampleSecCfg .vCyclic).errors = [] ∧
    (validateInput sampleSecCfg .vCyclic).valid = true :=
  unserializable_input_never_too_large sampleSecCfg .vCyclic rfl

/-- C8 — Timeout determinism: when the external invocation does not settle
strictly before the configured timeout, the race is decided by the timer:
`executeWithTimeout` rejects with the `EXECUTION_TIMEOUT`-classified
`TimeoutError`, `executeShortcut` returns `success = false` with that
error's message and `executionTime` equal to the timeout, and the result is
identical for any invocation outcome — the in-flight invocation is
abandoned, never joined. -/
theorem timeout_determinism (cfg : ShortcutConfig) (req : ExecutionRequest)
    (inv : InvocationBehavior) (startTime : Int)
    (o o' : Except String String)
    (htimeout : req.timeout.getD cfg.defaultTimeout ≤ inv.completesAt) :
    executeWithTimeout (req.timeout.getD cfg.defaultTimeout) inv =
      .error (.timeoutError ("Execution timeout after " ++
        toString (req.timeout.getD cfg.defaultTimeout) ++ "ms")) ∧
    ExecError.code (.timeoutError ("Execution timeout after " ++
      toString (req.timeout.getD cfg.defaultTimeout) ++ "ms")) =
      "EXECUTION_TIMEOUT" ∧
    (executeShortcut cfg req true inv startTime).success = false ∧
    (executeShortcut cfg req true inv startTime).error =
      some ("Execution timeout after " ++
        toString (req.timeout.getD cfg.defaultTimeout) ++ "ms") ∧
    (executeShortcut cfg req true inv startTime).executionTime =
      Int.ofNat (req.timeout.getD cfg.defaultTimeout) ∧
    executeShortcut cfg req true
      { completesAt := inv.completesAt, outcome := o } startTime =
    executeShortcut cfg req true
      { completesAt := inv.completesAt, outcome := o' } startTime := by
  have hrace : ∀ oc : Except String String,
      executeWithTimeout (req.timeout.getD cfg.defaultTimeout)
        { completesAt := inv.completesAt, outcome := oc } =
      .error (.timeoutError ("Execution timeout after " ++
        toString (req.timeout.getD cfg.defaultTimeout) ++ "ms")) := by
    intro oc
    simp only [executeWithTimeout]
    rw [if_neg (by simp only [Nat.not_lt]; exact htimeout)]
  have hrace0 : executeWithTimeout (req.timeout.getD cfg.defaultTimeout) inv =
      .error (.timeoutError ("Execution timeout after " ++
        toString (req.timeout.getD cfg.defaultTimeout) ++ "ms")) := by
    have := hrace inv.outcome
    simpa using this
  have hmin : min inv.completesAt (req.timeout.getD cfg.defaultTimeout) =
      req.timeout.getD cfg.defaultTimeout := Nat.min_eq_right htimeout
  refine ⟨hrace0, rfl, ?_, ?_, ?_, ?_⟩
  · simp only [executeShortcut, Bool.not_true, hrace0]
    rfl
  · simp only [executeShortcut, Bool.not_true, hrace0]
    rfl
  · simp only [executeShortcut, Bool.not_true, hrace0, if_true, hmin]
    rfl
  · simp only [executeShortcut, Bool.not_true, hrace inv.outcome, hrace o,
      hrace o']

/-- A slow invocation: settles after 5000 ms with a successful output. -/
def slowInvocation : InvocationBehavior :=
  { completesAt := 5000, outcome := .ok "late output" }

/-- Witness for C8: a 1000 ms timeout against the 5000 ms invocation. -/
theorem timeout_determinism_witness :
    executeWithTimeout
      (({ name := "Slow", timeout := some 1000 } :
        ExecutionRequest).timeout.getD sampleShortcutCfg.defaultTimeout)
      slowInvocation =
      .error (.timeoutError ("Execution timeout after " ++
        toString (({ name := "Slow", timeout := some 1000 } :
          ExecutionRequest).timeout.getD sampleShortcutCfg.defaultTimeout) ++
        "ms")) ∧
    ExecError.code (.timeoutError ("Execution timeout after " ++
      toString (({ name := "Slow", timeout := some 1000 } :
        ExecutionRequest).timeout.getD sampleShortcutCfg.defaultTimeout) ++
      "ms")) = "EXECUTION_TIMEOUT" ∧
    (executeShortcut sampleShortcutCfg
      { name := "Slow", timeout := some 1000 } true slowInvocation 0).success
      = false ∧
    (executeShortcut sampleShortcutCfg
      { name := "Slow", timeout := some 1000 } true slowInvocation 0).error =
      some ("Execution timeout after " ++
        toString (({ name := "Slow", timeout := some 1000 } :
          ExecutionRequest).timeout.getD sampleShortcutCfg.defaultTimeout) ++
        "ms") ∧
    (executeShortcut sampleShortcutCfg
      { name := "Slow", timeout := some 1000 } true slowInvocation
      0).executionTime =
      Int.ofNat (({ name := "Slow", timeout := some 1000 } :
        ExecutionRequest).timeout.getD sampleShortcutCfg.defaultTimeout) ∧
    executeShortcut sampleShortcutCfg
      { name := "Slow", timeout := some 1000 } true
      { completesAt := slowInvocation.completesAt, outcome := .ok "x" } 0 =
    executeShortcut sampleShortcutCfg
      { name := "Slow", timeout := some 1000 } true
      { completesAt := slowInvocation.completesAt, outcome := .error "y" } 0 :=
  timeout_determinism sampleShortcutCfg { name := "Slow", timeout := some 1000 }
    slowInvocation 0 (.ok "x") (.error "y") (by decide)

/-- A request with an unrecognized method (rejected by the gate). -/
def rejectedReq : MCPRequest :=
  { method := some "bad/method", params := some {} }

/-- A well-formed `run_shortcut` request (accepted by the gate). -/
def acceptedReq : MCPRequest :=
  { method := some "tools/call",
    params := some
      { name := some "run_shortcut",
        arguments := some
          { name := some "Hello World",
            input := some (.vStr "San Francisco") } } }

/-- A well-formed `list_shortcuts` request: accepted by the gate, but routed
away from `handleRunShortcut` by the tool-name switch. -/
def listReq : MCPRequest :=
  { method := some "tools/call",
    params := some { name := some "list_shortcuts", arguments := some {} } }

/-- An invocation that settles quickly with a failure. -/
def failingInvocation : InvocationBehavior :=
  { completesAt := 5, outcome := .error "boom" }

/-- An invocation that settles quickly with a stdout payload. -/
def okInvocation : InvocationBehavior :=
  { completesAt := 5, outcome := .ok "Hello" }

/-- Counterexample to C1 as stated: an accepted `run_shortcut` request whose
execution FAILS appends no `AuditEntry`.  `handleRunShortcut` throws on
`!result.success` (`src/shortcuts/prompt-manager.ts:1471-1473`) before
reaching the `logExecution` call at line 1476, so the accepted request whose
invocation fails leaves the audit log empty — contradicting "every accepted
request — whether the execution succeeds or fails — causes exactly one
AuditEntry to be appended". -/
theorem pipeline_failed_exec_unaudited_counterexample :
    (validateRequest sampleSecCfg RateTracker.empty 0 acceptedReq).1.allowed
      = true ∧
    (runPipeline sampleSecCfg sampleShortcutCfg RateTracker.empty []
        acceptedReq 0 true failingInvocation "audit_1").1.map
        (fun r => r.success) = some false ∧
    (runPipeline sampleSecCfg sampleShortcutCfg RateTracker.empty []
        acceptedReq 0 true failingInvocation "audit_1").2.2 = [] :=
  ⟨by decide, rfl, rfl⟩

/-- C1 (amended) — Gate/audit behaviour of the pipeline
(`ShortcutMCPServer`, `src/shortcuts/prompt-manager.ts:1353-1498`): a
request the Security Gate rejects produces no `ExecutionResult` and leaves
the audit log unchanged; an accepted request for any tool other than
`run_shortcut` likewise runs no shortcut and appends nothing; an accepted
`run_shortcut` whose execution FAILS yields the Coordinator's failed result
but appends NO `AuditEntry` (the handler throws on `!result.success` before
`logExecution`); an accepted `run_shortcut` whose execution succeeds appends
exactly one entry (the log becomes the old log plus one entry, trimmed to
the 1000-entry capacity). -/
theorem pipeline_gate_audit_success_only (secCfg : SecurityConfig)
    (shCfg : ShortcutConfig) (tracker : RateTracker)
    (auditLog : List AuditEntry) (req : MCPRequest) (now : Int) (found : Bool)
    (inv : InvocationBehavior) (genId : String) :
    ((validateRequest secCfg tracker now req).1.allowed = false →
      runPipeline secCfg shCfg tracker auditLog req now found inv genId =
        (none, (validateRequest secCfg tracker now req).2, auditLog)) ∧
    ((validateRequest secCfg tracker now req).1.allowed = true →
      (req.params.getD {}).name.getD "" ≠ "run_shortcut" →
      runPipeline secCfg shCfg tracker auditLog req now found inv genId =
        (none, (validateRequest secCfg tracker now req).2, auditLog)) ∧
    ((validateRequest secCfg tracker now req).1.allowed = true →
      (req.params.getD {}).name.getD "" = "run_shortcut" →
      ((req.params.getD {}).arguments.getD {}).name.getD "" ≠ "" →
      isShortcutAllowed secCfg
        (((req.params.getD {}).arguments.getD {}).name.getD "") = true →
      (executeShortcut shCfg
        { name := ((req.params.getD {}).arguments.getD {}).name.getD "",
          input := ((req.params.getD {}).arguments.getD {}).input,
          timeout := some (resolveTimeout shCfg
            ((req.params.getD {}).arguments.getD {}).timeout) }
        found inv now).success = false →
      runPipeline secCfg shCfg tracker auditLog req now found inv genId =
        (some (executeShortcut shCfg
            { name := ((req.params.getD {}).arguments.getD {}).name.getD "",
              input := ((req.params.getD {}).arguments.getD {}).input,
              timeout := some (resolveTimeout shCfg
                ((req.params.getD {}).arguments.getD {}).timeout) }
            found inv now),
          (validateRequest secCfg tracker now req).2, auditLog)) ∧
    ((validateRequest secCfg tracker now req).1.allowed = true →
      (req.params.getD {}).name.getD "" = "run_shortcut" →
      ((req.params.getD {}).arguments.getD {}).name.getD "" ≠ "" →
      isShortcutAllowed secCfg
        (((req.params.getD {}).arguments.getD {}).name.getD "") = true →
      (executeShortcut shCfg
        { name := ((req.params.getD {}).arguments.getD {}).name.getD "",
          input := ((req.params.getD {}).arguments.getD {}).input,
          timeout := some (resolveTimeout shCfg
            ((req.params.getD {}).arguments.getD {}).timeout) }
        found inv now).success = true →
      ∃ entry : AuditEntry,
        runPipeline secCfg shCfg tracker auditLog req now found inv genId =
          (some (executeShortcut shCfg
              { name := ((req.params.getD {}).arguments.getD {}).name.getD "",
                input := ((req.params.getD {}).arguments.getD {}).input,
                timeout := some (resolveTimeout shCfg
                  ((req.params.getD {}).arguments.getD {}).timeout) }
              found inv now),
            (validateRequest secCfg tracker now req).2,
            (auditLog ++ [entry]).drop ((auditLog.length + 1) - 1000))) := by
  refine ⟨?_, ?_, ?_, ?_⟩
  · intro hrej
    simp only [runPipeline, hrej, Bool.not_false, if_true]
  · intro hacc htool
    simp only [runPipeline, hacc, Bool.not_true, if_false]
    rw [if_pos htool]
    rfl
  · intro hacc htool hname hallow hfail
    simp only [runPipeline, hacc, Bool.not_true, if_false]
    rw [if_neg (not_not_intro htool), if_neg hname]
    simp only [hallow, Bool.not_true, if_false, hfail, Bool.not_false,
      if_true]
    rfl
  · intro hacc htool hname hallow hsucc
    refine ⟨mkAuditEntry secCfg genId now
      (((req.params.getD {}).arguments.getD {}).name.getD "")
      { input := ((req.params.getD {}).arguments.getD {}).input.getD .vNull,
        success := (executeShortcut shCfg
          { name := ((req.params.getD {}).arguments.getD {}).name.getD "",
            input := ((req.params.getD {}).arguments.getD {}).input,
            timeout := some (resolveTimeout shCfg
              ((req.params.getD {}).arguments.getD {}).timeout) }
          found inv now).success,
        executionTime := (executeShortcut shCfg
          { name := ((req.params.getD {}).arguments.getD {}).name.getD "",
            input := ((req.params.getD {}).arguments.getD {}).input,
            timeout := some (resolveTimeout shCfg
              ((req.params.getD {}).arguments.getD {}).timeout) }
          found inv now).executionTime,
        error := none }, ?_⟩
    simp only [runPipeline, hacc, Bool.not_true, if_false]
    rw [if_neg (not_not_intro htool), if_neg hname]
    simp only [hallow, Bool.not_true, if_false, hsucc]
    rw [logExecution_eq_drop]
    rfl

/-- Witness for C1 (amended): the gate rejection (unknown method) leaves the
audit log empty with no result; the accepted `list_shortcuts` request runs
nothing and logs nothing; the accepted `run_shortcut` whose invocation fails
yields the failed result with an UNCHANGED (empty) audit log; the accepted
`run_shortcut` whose invocation succeeds yields the result plus exactly one
appended entry. -/
theorem pipeline_gate_audit_success_only_witness :
    runPipeline sampleSecCfg sampleShortcutCfg RateTracker.empty []
      rejectedReq 0 true okInvocation "audit_1" =
      (none,
        (validateRequest sampleSecCfg RateTracker.empty 0 rejectedReq).2,
        []) ∧
    runPipeline sampleSecCfg sampleShortcutCfg RateTracker.empty []
      listReq 0 true okInvocation "audit_1" =
      (none,
        (validateRequest sampleSecCfg RateTracker.empty 0 listReq).2,
        []) ∧
    runPipeline sampleSecCfg sampleShortcutCfg RateTracker.empty []
      acceptedReq 0 true failingInvocation "audit_1" =
      (some (executeShortcut sampleShortcutCfg
          { name := ((acceptedReq.params.getD {}).arguments.getD {}).name.getD "",
            input := ((acceptedReq.params.getD {}).arguments.getD {}).input,
            timeout := some (resolveTimeout sampleShortcutCfg
              ((acceptedReq.params.getD {}).arguments.getD {}).timeout) }
          true failingInvocation 0),
        (validateRequest sampleSecCfg RateTracker.empty 0 acceptedReq).2,
        []) ∧
    ∃ entry : AuditEntry,
      runPipeline sampleSecCfg sampleShortcutCfg RateTracker.empty []
        acceptedReq 0 true okInvocation "audit_1" =
        (some (executeShortcut sampleShortcutCfg
            { name := ((acceptedReq.params.getD {}).arguments.getD {}).name.getD "",
              input := ((acceptedReq.params.getD {}).arguments.getD {}).input,
              timeout := some (resolveTimeout sampleShortcutCfg
                ((acceptedReq.params.getD {}).arguments.getD {}).timeout) }
            true okInvocation 0),
          (validateRequest sampleSecCfg RateTracker.empty 0 acceptedReq).2,
          (([] : List AuditEntry) ++ [entry]).drop
            ((([] : List AuditEntry).length + 1) - 1000)) :=
  ⟨(pipeline_gate_audit_success_only sampleSecCfg sampleShortcutCfg
      RateTracker.empty [] rejectedReq 0 true okInvocation "audit_1").1
      (by decide),
   (pipeline_gate_audit_success_only sampleSecCfg sampleShortcutCfg
      RateTracker.empty [] listReq 0 true okInvocation "audit_1").2.1
      (by decide) (by decide),
   (pipeline_gate_audit_success_only sampleSecCfg sampleShortcutCfg
      RateTracker.empty [] acceptedReq 0 true failingInvocation
      "audit_1").2.2.1 (by decide) (by decide) (by decide) (by decide)
      (by decide),
   (pipeline_gate_audit_success_only sampleSecCfg sampleShortcutCfg
      RateTracker.empty [] acceptedReq 0 true okInvocation
      "audit_1").2.2.2 (by decide) (by decide) (by decide) (by decide)
      (by decide)⟩

/-- The keys of an object value (`none` for every other kind). -/
def keysOf : InputVal → Option (List String)
  | .vObj kvs => some (kvs.map Prod.fst)
  | _ => none

/-- Whether a value is an array. -/
def isVArr : InputVal → Bool
  | .vArr _ => true
  | _ => false

/-- Counterexample to C9 as stated: `sanitizeInput` rebuilds a non-null
object from `Object.entries`, so an array does NOT keep its container kind —
`[ "a" ]` comes back as the plain object `{ "0": "a" }`. -/
theorem sanitize_array_kind_counterexample :
    sanitizeInput (.vArr [.vStr "a"]) = .vObj [("0", .vStr "a")] ∧
    isVArr (sanitizeInput (.vArr [.vStr "a"])) = false := ⟨rfl, rfl⟩

mutual

theorem sanitize_listStrings : ∀ (v : InputVal),
    listStrings (sanitizeInput v) = (listStrings v).map sanitizeString
  | .vStr s => by simp [sanitizeInput, listStrings]
  | .vInt n => by simp [sanitizeInput, listStrings]
  | .vBool b => by simp [sanitizeInput, listStrings]
  | .vNull => by simp [sanitizeInput, listStrings]
  | .vCyclic => by simp [sanitizeInput, listStrings]
  | .vArr xs => by
      simp only [sanitizeInput, listStrings]
      exact sanitize_listStrings_arr 0 xs
  | .vObj kvs => by
      simp only [sanitizeInput, listStrings]
      exact sanitize_listStrings_obj kvs

theorem sanitize_listStrings_arr : ∀ (i : Nat) (xs : List InputVal),
    listStringsObj (sanitizeArrayEntries i xs) =
      (listStringsArr xs).map sanitizeString
  | _, [] => by simp [sanitizeArrayEntries, listStringsArr, listStringsObj]
  | i, x :: xs => by
      simp only [sanitizeArrayEntries, listStringsArr, listStringsObj,
        List.map_append]
      rw [sanitize_listStrings x, sanitize_listStrings_arr (i + 1) xs]

theorem sanitize_listStrings_obj : ∀ (kvs : List (String × InputVal)),
    listStringsObj (sanitizeObjectEntries kvs) =
      (listStringsObj kvs).map sanitizeString
  | [] => by simp [sanitizeObjectEntries, listStringsObj]
  | (k, v) :: kvs => by
      simp only [sanitizeObjectEntries, listStringsObj, List.map_append]
      rw [sanitize_listStrings v, sanitize_listStrings_obj kvs]

end

theorem sanitizeObjectEntries_keys (kvs : List (String × InputVal)) :
    (sanitizeObjectEntries kvs).map Prod.fst = kvs.map Prod.fst := by
  induction kvs with
  | nil => rfl
  | cons kv kvs ih =>
    obtain ⟨k, v⟩ := kv
    simp [sanitizeObjectEntries, ih]

theorem sanitizeArrayEntries_keys (xs : List InputVal) :
    ∀ i, (sanitizeArrayEntries i xs).map Prod.fst =
      (List.range' i xs.length).map toString := by
  induction xs with
  | nil => intro i; rfl
  | cons x xs ih =>
    intro i
    simp only [sanitizeArrayEntries, List.map_cons, List.length_cons,
      List.range'_succ, ih (i + 1)]

/-- C9 (amended) — `sanitizeInput` rewrites exactly the strings reachable in
the input (each by the script-tag / `javascript:` / `vbscript:` /
event-handler removals, as the concrete evaluations show), recursing through
nested structures; non-string scalars are returned unchanged and objects
keep their kind and keys, but an array is rebuilt as a plain object keyed by
its index strings rather than keeping its array kind. -/
theorem sanitizeInput_spec (v : InputVal) (s : String) (n : Int) (b : Bool)
    (xs : List InputVal) (kvs : List (String × InputVal)) :
    listStrings (sanitizeInput v) = (listStrings v).map sanitizeString ∧
    sanitizeInput (.vStr s) = .vStr (sanitizeString s) ∧
    sanitizeInput (.vInt n) = .vInt n ∧
    sanitizeInput (.vBool b) = .vBool b ∧
    sanitizeInput .vNull = .vNull ∧
    keysOf (sanitizeInput (.vObj kvs)) = some (kvs.map Prod.fst) ∧
    keysOf (sanitizeInput (.vArr xs)) =
      some ((List.range' 0 xs.length).map toString) ∧
    sanitizeString "<script>alert(1)</script>safe" = "safe" ∧
    sanitizeString "click javascript:alert(1)" = "click alert(1)" ∧
    sanitizeString "say vbscript:hi" = "say hi" ∧
    sanitizeString "a onclick=b" = "a b" := by
  refine ⟨sanitize_listStrings v, rfl, rfl, rfl, rfl, ?_, ?_, ?_, ?_, ?_, ?_⟩
  · simp [sanitizeInput, keysOf, sanitizeObjectEntries_keys]
  · simp [sanitizeInput, keysOf, sanitizeArrayEntries_keys]
  · rfl
  · rfl
  · rfl
  · rfl

/-! ## Idempotence of `filterOutput`

The redaction pattern `kw\s*[:=]\s*\S+` is recognized by a deterministic
character-consuming machine (`runM`): match the keyword case-insensitively,
skip whitespace, expect `:` or `=`, skip whitespace, and succeed on the
first further non-whitespace character (`\S+` can then never fail).  The
idempotence proof shows that a redaction pass can only produce strings
whose every keyword match is exactly the canonical replacement, and that
later passes preserve this. -/

/-- The separator class `[:=]` of the redaction regexes. -/
def sepChar (c : Char) : Bool := c = ':' ∨ c = '='

/-- A keyword character: lowercase-stable, not whitespace, not a separator. -/
def letterOK (c : Char) : Bool :=
  c.toLower = c ∧ isJsSpace c = false ∧ c ≠ ':' ∧ c ≠ '='

/-- All characters of a keyword are `letterOK`. -/
def KwGood (kw : List Char) : Prop := ∀ c ∈ kw, letterOK c = true

/-- State of the redaction matcher: remaining keyword characters, the
whitespace run before the separator, or the whitespace run after it. -/
inductive MState where
  | kwS (k : Char) (ks : List Char)
  | ws1
  | ws2

/-- Whether a matcher state only carries `letterOK` keyword characters. -/
def StateOK : MState → Prop
  | .kwS k ks => ∀ c ∈ k :: ks, letterOK c = true
  | _ => True

/-- The deterministic matcher for `kw\s*[:=]\s*\S+` run from a given state;
`true` means some suffix of the input completes a match. -/
def runM : MState → List Char → Bool
  | .kwS _ _, [] => false
  | .kwS k ks, c :: t =>
    if c.toLower = k then
      match ks with
      | [] => runM .ws1 t
      | k' :: ks' => runM (.kwS k' ks') t
    else false
  | .ws1, [] => false
  | .ws1, c :: t =>
    if isJsSpace c then runM .ws1 t
    else if sepChar c then runM .ws2 t
    else false
  | .ws2, [] => false
  | .ws2, c :: t => if isJsSpace c then runM .ws2 t else true

theorem jsSpace_toLower_self (c : Char) (h : isJsSpace c = true) :
    c.toLower = c := by
  have hmem : c ∈ jsWhitespaceChars := List.elem_iff.mp h
  simp only [jsWhitespaceChars, List.mem_cons, List.not_mem_nil, or_false]
    at hmem
  rcases hmem with h | h | h | h | h | h | h | h | h | h | h | h | h | h | h |
    h | h | h | h | h | h | h | h | h | h <;> subst h <;> decide

theorem toLower_letter_not_space (c k : Char) (hk : letterOK k = true)
    (h : c.toLower = k) : isJsSpace c = false := by
  by_contra hc
  rw [Bool.not_eq_false] at hc
  rw [jsSpace_toLower_self c hc] at h
  subst h
  simp only [letterOK, Bool.decide_and, Bool.and_eq_true, decide_eq_true_eq]
    at hk
  rw [hc] at hk
  simp at hk

theorem toLower_letter_not_sep (c k : Char) (hk : letterOK k = true)
    (h : c.toLower = k) : sepChar c = false := by
  simp only [sepChar, Bool.decide_or, Bool.or_eq_false_iff,
    decide_eq_false_iff_not]
  constructor
  · rintro rfl
    have : (':' : Char).toLower = ':' := by decide
    rw [this] at h
    subst h
    simp only [letterOK, Bool.decide_and, Bool.and_eq_true,
      decide_eq_true_eq] at hk
    exact absurd rfl hk.2.2.1
  · rintro rfl
    have : ('=' : Char).toLower = '=' := by decide
    rw [this] at h
    subst h
    simp only [letterOK, Bool.decide_and, Bool.and_eq_true,
      decide_eq_true_eq] at hk
    exact absurd rfl hk.2.2.2

theorem runM_ws2_iff : ∀ t : List Char,
    runM .ws2 t = true ↔ t.dropWhile isJsSpace ≠ [] := by
  intro t
  induction t with
  | nil => simp [runM]
  | cons c t ih =>
    by_cases hc : isJsSpace c = true
    · rw [show runM .ws2 (c :: t) = runM .ws2 t from by simp [runM, hc],
        List.dropWhile_cons_of_pos hc]
      exact ih
    · have hc' : isJsSpace c = false := by simpa using hc
      rw [show runM .ws2 (c :: t) = true from by simp [runM, hc'],
        List.dropWhile_cons_of_neg (by simpa using hc)]
      simp

theorem runM_ws1_iff : ∀ t : List Char,
    runM .ws1 t = true ↔ ∃ c s3, t.dropWhile isJsSpace = c :: s3 ∧
      sepChar c = true ∧ runM .ws2 s3 = true := by
  intro t
  induction t with
  | nil => simp [runM]
  | cons c t ih =>
    by_cases hc : isJsSpace c = true
    · rw [show runM .ws1 (c :: t) = runM .ws1 t from by simp [runM, hc],
        List.dropWhile_cons_of_pos hc]
      exact ih
    · rw [List.dropWhile_cons_of_neg (by simpa using hc)]
      by_cases hs : sepChar c = true
      · rw [show runM .ws1 (c :: t) = runM .ws2 t from by
          simp [runM, hc, hs]]
        constructor
        · intro h; exact ⟨c, t, rfl, hs, h⟩
        · rintro ⟨c', s3, heq, -, h⟩
          obtain ⟨rfl, rfl⟩ : c' = c ∧ s3 = t := by
            constructor <;> [exact (List.cons.injEq .. ▸ heq).1.symm;
              exact (List.cons.injEq .. ▸ heq).2.symm]
          exact h
      · rw [show runM .ws1 (c :: t) = false from by simp [runM, hc, hs]]
        constructor
        · intro h; cases h
        · rintro ⟨c', s3, heq, hsep, -⟩
          obtain ⟨rfl, -⟩ : c' = c ∧ s3 = t := by
            constructor <;> [exact (List.cons.injEq .. ▸ heq).1.symm;
              exact (List.cons.injEq .. ▸ heq).2.symm]
          exact (hs hsep).elim

theorem runM_ws1_of_ws2 (t : List Char) (h : runM .ws1 t = true) :
    runM .ws2 t = true := by
  rcases (runM_ws1_iff t).mp h with ⟨c, s3, heq, -, -⟩
  rw [runM_ws2_iff, heq]
  simp

theorem stripKw_decomp : ∀ (kw s r : List Char), stripKw kw s = some r →
    ∃ pre, s = pre ++ r ∧ List.Forall₂ (fun c k => c.toLower = k) pre kw := by
  intro kw
  induction kw with
  | nil =>
    intro s r h
    simp only [stripKw, Option.some.injEq] at h
    exact ⟨[], by simp [h], List.Forall₂.nil⟩
  | cons k ks ih =>
    intro s r h
    cases s with
    | nil => simp [stripKw] at h
    | cons c t =>
      simp only [stripKw] at h
      split_ifs at h with hc
      · obtain ⟨pre, hpre, hall⟩ := ih t r h
        exact ⟨c :: pre, by simp [hpre], List.Forall₂.cons hc hall⟩

theorem stripKw_of_forall₂ : ∀ (kw pre t : List Char),
    List.Forall₂ (fun c k => c.toLower = k) pre kw →
    stripKw kw (pre ++ t) = some t := by
  intro kw pre t h
  induction h with
  | nil => rfl
  | cons hck _ ih => simp [stripKw, hck, ih]

theorem stripKw_length_lt (k : Char) (ks s r : List Char)
    (h : stripKw (k :: ks) s = some r) : r.length < s.length := by
  obtain ⟨pre, rfl, hall⟩ := stripKw_decomp (k :: ks) s r h
  have : pre.length = ks.length + 1 := by
    simpa using List.Forall₂.length_eq hall
  simp [this]

theorem runM_kwS_iff : ∀ (kw : List Char) (k : Char) (ks : List Char),
    kw = k :: ks → ∀ s, runM (.kwS k ks) s = true ↔
      ∃ s1, stripKw kw s = some s1 ∧ runM .ws1 s1 = true := by
  intro kw
  induction kw with
  | nil => intro k ks h; cases h
  | cons k0 ks0 ih =>
    rintro k ks ⟨rfl, rfl⟩ s
    cases s with
    | nil =>
      simp [runM, stripKw]
    | cons c t =>
      by_cases hc : c.toLower = k0
      · cases ks0 with
        | nil =>
          rw [show runM (.kwS k0 []) (c :: t) = runM .ws1 t from by
            simp [runM, hc]]
          simp only [stripKw, if_pos hc]
          constructor
          · intro h; exact ⟨t, rfl, h⟩
          · rintro ⟨s1, hs1, h⟩
            obtain rfl : t = s1 := by simpa using hs1
            exact h
        | cons k1 ks1 =>
          rw [show runM (.kwS k0 (k1 :: ks1)) (c :: t) =
            runM (.kwS k1 ks1) t from by simp [runM, hc]]
          rw [ih k1 ks1 rfl t]
          simp only [stripKw, if_pos hc]
      · rw [show runM (.kwS k0 ks0) (c :: t) = false from by simp [runM, hc]]
        simp only [stripKw, if_neg hc]
        simp

theorem dropWhile_cons_head_not (p : Char → Bool) (l : List Char)
    (x : Char) (xs : List Char) (h : l.dropWhile p = x :: xs) :
    p x = false := by
  have h1 : l.dropWhile p ≠ [] := by rw [h]; simp
  have h2 := List.head_dropWhile_not p l h1
  have h3 : (l.dropWhile p).head h1 = x := by simp [h]
  rwa [h3] at h2

theorem tryRedactMatch_some_iff (kw : List Char) (s : List Char) :
    (∃ r, tryRedactMatch kw s = some r) ↔
      ∃ s1, stripKw kw s = some s1 ∧ runM .ws1 s1 = true := by
  rcases hstrip : stripKw kw s with - | s1
  · unfold tryRedactMatch
    rw [hstrip]
    simp
  · unfold tryRedactMatch
    rw [hstrip]
    simp only [Option.some.injEq]
    rcases hdrop : s1.dropWhile isJsSpace with - | ⟨c, s3⟩
    · constructor
      · rintro ⟨r, hr⟩; cases hr
      · rintro ⟨s1', rfl, hws1⟩
        rcases (runM_ws1_iff s1).mp hws1 with ⟨c, s3, hd, -, -⟩
        rw [hdrop] at hd; cases hd
    · constructor
      · rintro ⟨r, hr⟩
        have hr' : (if c = ':' ∨ c = '=' then
            if ((s3.dropWhile isJsSpace).takeWhile
                (fun d => !isJsSpace d)).isEmpty = true then none
            else some ((s3.dropWhile isJsSpace).dropWhile
                (fun d => !isJsSpace d))
          else none) = some r := hr
        split_ifs at hr' with hsep hval
        refine ⟨s1, rfl, ?_⟩
        rw [runM_ws1_iff]
        refine ⟨c, s3, hdrop, by simpa [sepChar] using hsep, ?_⟩
        rw [runM_ws2_iff]
        intro hnil
        rw [hnil] at hval
        simp at hval
      · rintro ⟨s1', rfl, hws1⟩
        rcases (runM_ws1_iff s1).mp hws1 with ⟨c', s3', hd, hsep, hws2⟩
        rw [hdrop] at hd
        obtain ⟨h1, h2⟩ := (List.cons.injEq ..).mp hd
        subst h1
        subst h2
        show ∃ r, (if c = ':' ∨ c = '=' then
            if ((s3.dropWhile isJsSpace).takeWhile
                (fun d => !isJsSpace d)).isEmpty = true then none
            else some ((s3.dropWhile isJsSpace).dropWhile
                (fun d => !isJsSpace d))
          else none) = some r
        rw [if_pos (by simpa [sepChar] using hsep)]
        have hne := (runM_ws2_iff s3).mp hws2
        rcases h4 : s3.dropWhile isJsSpace with - | ⟨x, xs⟩
        · exact absurd h4 hne
        · have hx : isJsSpace x = false := dropWhile_cons_head_not _ _ _ _ h4
          rw [if_neg ?_]
          · exact ⟨_, rfl⟩
          · simp [List.takeWhile_cons, hx]

theorem tryRedactMatch_isSome_eq_runM (k : Char) (ks s : List Char) :
    (tryRedactMatch (k :: ks) s).isSome = runM (.kwS k ks) s := by
  rw [show ∀ a b : Bool, (a = b) ↔ (a = true ↔ b = true) from by decide]
  rw [Option.isSome_iff_exists, tryRedactMatch_some_iff,
    runM_kwS_iff (k :: ks) k ks rfl s]

/-- A matcher whose matched span always consumes at least one character. -/
def Shrinking (m : List Char → Option (List Char)) : Prop :=
  ∀ s r, m s = some r → r.length < s.length

theorem scanReplaceAux_congr (m : List Char → Option (List Char))
    (rep : List Char) (hm : Shrinking m) :
    ∀ (f1 : Nat), ∀ (f2 : Nat) (s : List Char), s.length ≤ f1 →
      s.length ≤ f2 → scanReplaceAux m rep f1 s = scanReplaceAux m rep f2 s := by
  intro f1
  induction f1 with
  | zero =>
    intro f2 s h1 _
    have : s = [] := List.length_eq_zero.mp (Nat.le_zero.mp h1)
    subst this
    cases f2 <;> rfl
  | succ g ih =>
    intro f2 s h1 h2
    cases s with
    | nil => cases f2 <;> rfl
    | cons c rest =>
      cases f2 with
      | zero => simp at h2
      | succ h =>
        show (match m (c :: rest) with
          | some r => rep ++ scanReplaceAux m rep g r
          | none => c :: scanReplaceAux m rep g rest) =
          (match m (c :: rest) with
          | some r => rep ++ scanReplaceAux m rep h r
          | none => c :: scanReplaceAux m rep h rest)
        rcases hmatch : m (c :: rest) with - | r
        · simp only []
          rw [ih h rest (by simpa using h1) (by simpa using h2)]
        · simp only []
          have hlt := hm _ _ hmatch
          simp only [List.length_cons] at hlt h1 h2
          rw [ih h r (by omega) (by omega)]

theorem scanReplace_nil (m : List Char → Option (List Char))
    (rep : List Char) : scanReplace m rep [] = [] := rfl

theorem scanReplace_cons (m : List Char → Option (List Char))
    (rep : List Char) (hm : Shrinking m) (c : Char) (rest : List Char) :
    scanReplace m rep (c :: rest) =
      match m (c :: rest) with
      | some r => rep ++ scanReplace m rep r
      | none => c :: scanReplace m rep rest := by
  show scanReplaceAux m rep (rest.length + 1) (c :: rest) = _
  show (match m (c :: rest) with
    | some r => rep ++ scanReplaceAux m rep rest.length r
    | none => c :: scanReplaceAux m rep rest.length rest) = _
  rcases hmatch : m (c :: rest) with - | r
  · rfl
  · simp only []
    have hlt := hm _ _ hmatch
    rw [scanReplaceAux_congr m rep hm rest.length r.length r
      (by simp at hlt; omega) le_rfl]
    rfl

theorem tryRedactMatch_decomp (kw s r : List Char)
    (h : tryRedactMatch kw s = some r) :
    ∃ s1 c s3, stripKw kw s = some s1 ∧
      s1.dropWhile isJsSpace = c :: s3 ∧ sepChar c = true ∧
      r = (s3.dropWhile isJsSpace).dropWhile (fun d => !isJsSpace d) ∧
      (s3.dropWhile isJsSpace).takeWhile (fun d => !isJsSpace d) ≠ [] := by
  unfold tryRedactMatch at h
  rcases hstrip : stripKw kw s with - | s1 <;> rw [hstrip] at h
  · cases h
  · have h2 : (match s1.dropWhile isJsSpace with
        | [] => (none : Option (List Char))
        | c :: s3 =>
          if c = ':' ∨ c = '=' then
            if ((s3.dropWhile isJsSpace).takeWhile
                (fun d => !isJsSpace d)).isEmpty = true then none
            else some ((s3.dropWhile isJsSpace).dropWhile
                (fun d => !isJsSpace d))
          else none) = some r := h
    rcases hdrop : s1.dropWhile isJsSpace with - | ⟨c, s3⟩ <;>
      rw [hdrop] at h2
    · cases h2
    · have h3 : (if c = ':' ∨ c = '=' then
          if ((s3.dropWhile isJsSpace).takeWhile
              (fun d => !isJsSpace d)).isEmpty = true then none
          else some ((s3.dropWhile isJsSpace).dropWhile
              (fun d => !isJsSpace d))
        else none) = some r := h2
      split_ifs at h3 with hsep hval
      refine ⟨s1, c, s3, rfl, hdrop, by simpa [sepChar] using hsep, ?_, ?_⟩
      · injection h3 with h4
        exact h4.symm
      · simpa using hval

theorem dropWhile_length_le (p : Char → Bool) (l : List Char) :
    (l.dropWhile p).length ≤ l.length := by
  induction l with
  | nil => simp
  | cons c t ih => by_cases h : p c <;> simp [List.dropWhile_cons, h] <;> omega

theorem tryRedactMatch_shrink (kw : List Char) :
    Shrinking (tryRedactMatch kw) := by
  intro s r h
  obtain ⟨s1, c, s3, hstrip, hdrop, -, hr, -⟩ := tryRedactMatch_decomp kw s r h
  have hs1 : s1.length ≤ s.length := by
    obtain ⟨pre, rfl, -⟩ := stripKw_decomp kw s s1 hstrip
    simp
  have hs3 : s3.length < s1.length := by
    have := dropWhile_length_le isJsSpace s1
    rw [hdrop] at this
    simp only [List.length_cons] at this
    omega
  have h1 := dropWhile_length_le isJsSpace s3
  have h2 := dropWhile_length_le (fun d => !isJsSpace d)
    (s3.dropWhile isJsSpace)
  have h3 : r.length ≤ (s3.dropWhile isJsSpace).length := by
    rw [hr]
    exact dropWhile_length_le _ _
  omega

theorem redactKw_nil (kw : List Char) : redactKw kw [] = [] := rfl

theorem redactKw_cons (kw : List Char) (c : Char) (rest : List Char) :
    redactKw kw (c :: rest) =
      match tryRedactMatch kw (c :: rest) with
      | some r => redactionCanon kw ++ redactKw kw r
      | none => c :: redactKw kw rest :=
  scanReplace_cons _ _ (tryRedactMatch_shrink kw) c rest

/-- Characters the matcher cannot distinguish: same lowercase form, same
whitespace class, same separator class. -/
def PairEquiv (a b : Char) : Prop :=
  a.toLower = b.toLower ∧ isJsSpace a = isJsSpace b ∧ sepChar a = sepChar b

theorem pairEquiv_of_lower (a k : Char) (hk : letterOK k = true)
    (h : a.toLower = k) : PairEquiv a k := by
  have hk' : k.toLower = k ∧ isJsSpace k = false ∧ k ≠ ':' ∧ k ≠ '=' := by
    simpa [letterOK] using hk
  refine ⟨by rw [h, hk'.1], ?_, ?_⟩
  · rw [toLower_letter_not_space a k hk h, hk'.2.1]
  · rw [toLower_letter_not_sep a k hk h]
    simp [sepChar, hk'.2.2.1, hk'.2.2.2]

theorem forall₂_pairEquiv (pre kw : List Char) (hkw : KwGood kw)
    (hall : List.Forall₂ (fun c k => c.toLower = k) pre kw) :
    List.Forall₂ PairEquiv pre kw := by
  induction hall with
  | nil => exact List.Forall₂.nil
  | cons hck htail ih =>
    refine List.Forall₂.cons ?_ (ih ?_)
    · exact pairEquiv_of_lower _ _ (hkw _ (by simp)) hck
    · intro c hc
      exact hkw c (by simp [hc])

theorem runM_parallel : ∀ (A B : List Char), List.Forall₂ PairEquiv A B →
    ∀ (σ : MState) (u v : List Char),
      (runM σ (A ++ u) = false ∧ runM σ (B ++ v) = false) ∨
      (runM σ (A ++ u) = true ∧ runM σ (B ++ v) = true) ∨
      (∃ σ', (StateOK σ → StateOK σ') ∧
        runM σ (A ++ u) = runM σ' u ∧ runM σ (B ++ v) = runM σ' v) := by
  intro A B hAB
  induction hAB with
  | nil =>
    intro σ u v
    exact Or.inr (Or.inr ⟨σ, id, rfl, rfl⟩)
  | @cons a b A' B' hab htail ih =>
    intro σ u v
    obtain ⟨hlow, hsp, hsep⟩ := hab
    cases σ with
    | kwS k ks =>
      by_cases hak : a.toLower = k
      · have hbk : b.toLower = k := by rw [← hlow]; exact hak
        cases ks with
        | nil =>
          rw [show runM (.kwS k []) (a :: A' ++ u) = runM .ws1 (A' ++ u)
              from by simp [runM, hak],
            show runM (.kwS k []) (b :: B' ++ v) = runM .ws1 (B' ++ v)
              from by simp [runM, hbk]]
          rcases ih .ws1 u v with h | h | ⟨σ', hok, h1, h2⟩
          · exact Or.inl h
          · exact Or.inr (Or.inl h)
          · exact Or.inr (Or.inr ⟨σ', fun _ => hok trivial, h1, h2⟩)
        | cons k' ks' =>
          rw [show runM (.kwS k (k' :: ks')) (a :: A' ++ u) =
              runM (.kwS k' ks') (A' ++ u) from by simp [runM, hak],
            show runM (.kwS k (k' :: ks')) (b :: B' ++ v) =
              runM (.kwS k' ks') (B' ++ v) from by simp [runM, hbk]]
          rcases ih (.kwS k' ks') u v with h | h | ⟨σ', hok, h1, h2⟩
          · exact Or.inl h
          · exact Or.inr (Or.inl h)
          · refine Or.inr (Or.inr ⟨σ', ?_, h1, h2⟩)
            intro hσ
            exact hok (fun c hc => hσ c (by simp [List.mem_cons.mp hc]))
      · have hbk : ¬ b.toLower = k := by rw [← hlow]; exact hak
        rw [show runM (.kwS k ks) (a :: A' ++ u) = false
            from by simp [runM, hak],
          show runM (.kwS k ks) (b :: B' ++ v) = false
            from by simp [runM, hbk]]
        exact Or.inl ⟨rfl, rfl⟩
    | ws1 =>
      by_cases ha : isJsSpace a = true
      · have hb : isJsSpace b = true := by rw [← hsp]; exact ha
        rw [show runM .ws1 (a :: A' ++ u) = runM .ws1 (A' ++ u)
            from by simp [runM, ha],
          show runM .ws1 (b :: B' ++ v) = runM .ws1 (B' ++ v)
            from by simp [runM, hb]]
        rcases ih .ws1 u v with h | h | ⟨σ', hok, h1, h2⟩
        · exact Or.inl h
        · exact Or.inr (Or.inl h)
        · exact Or.inr (Or.inr ⟨σ', fun _ => hok trivial, h1, h2⟩)
      · have ha' : isJsSpace a = false := by simpa using ha
        have hb' : isJsSpace b = false := by rw [← hsp]; exact ha'
        by_cases has : sepChar a = true
        · have hbs : sepChar b = true := by rw [← hsep]; exact has
          rw [show runM .ws1 (a :: A' ++ u) = runM .ws2 (A' ++ u)
              from by simp [runM, ha', has],
            show runM .ws1 (b :: B' ++ v) = runM .ws2 (B' ++ v)
              from by simp [runM, hb', hbs]]
          rcases ih .ws2 u v with h | h | ⟨σ', hok, h1, h2⟩
          · exact Or.inl h
          · exact Or.inr (Or.inl h)
          · exact Or.inr (Or.inr ⟨σ', fun _ => hok trivial, h1, h2⟩)
        · have has' : sepChar a = false := by simpa using has
          have hbs' : sepChar b = false := by rw [← hsep]; exact has'
          rw [show runM .ws1 (a :: A' ++ u) = false
              from by simp [runM, ha', has'],
            show runM .ws1 (b :: B' ++ v) = false
              from by simp [runM, hb', hbs']]
          exact Or.inl ⟨rfl, rfl⟩
    | ws2 =>
      by_cases ha : isJsSpace a = true
      · have hb : isJsSpace b = true := by rw [← hsp]; exact ha
        rw [show runM .ws2 (a :: A' ++ u) = runM .ws2 (A' ++ u)
            from by simp [runM, ha],
          show runM .ws2 (b :: B' ++ v) = runM .ws2 (B' ++ v)
            from by simp [runM, hb]]
        rcases ih .ws2 u v with h | h | ⟨σ', hok, h1, h2⟩
        · exact Or.inl h
        · exact Or.inr (Or.inl h)
        · exact Or.inr (Or.inr ⟨σ', fun _ => hok trivial, h1, h2⟩)
      · have ha' : isJsSpace a = false := by simpa using ha
        have hb' : isJsSpace b = false := by rw [← hsp]; exact ha'
        rw [show runM .ws2 (a :: A' ++ u) = true from by simp [runM, ha'],
          show runM .ws2 (b :: B' ++ v) = true from by simp [runM, hb']]
        exact Or.inr (Or.inl ⟨rfl, rfl⟩)

theorem runM_kwS_colon (k' : Char) (ks' t : List Char)
    (hk' : letterOK k' = true) : runM (.kwS k' ks') (':' :: t) = false := by
  have hne : ¬ (':' : Char).toLower = k' := by
    intro h
    have hcol : (':' : Char).toLower = ':' := by decide
    rw [hcol] at h
    subst h
    simp [letterOK] at hk'
  simp only [runM]
  rw [if_neg hne]

/-- Core transfer: a redaction pass for keyword `W` cannot turn a failing
matcher run (from any well-formed state) into a succeeding one. -/
theorem runM_fail_transfer (W : List Char) (hWgood : KwGood W) :
    ∀ (n : Nat) (X : List Char), X.length ≤ n → ∀ σ : MState, StateOK σ →
      runM σ X = false → runM σ (redactKw W X) = false := by
  intro n
  induction n with
  | zero =>
    intro X hlen σ _ hfail
    have : X = [] := List.length_eq_zero.mp (Nat.le_zero.mp hlen)
    subst this
    exact hfail
  | succ n ih =>
    intro X hlen σ hσ hfail
    cases X with
    | nil => exact hfail
    | cons c rest =>
      rw [redactKw_cons]
      rcases hmatch : tryRedactMatch W (c :: rest) with - | r
      · simp only []
        cases σ with
        | kwS k ks =>
          by_cases hck : c.toLower = k
          · cases ks with
            | nil =>
              rw [show runM (.kwS k []) (c :: redactKw W rest) =
                  runM .ws1 (redactKw W rest) from by simp [runM, hck]]
              rw [show runM (.kwS k []) (c :: rest) = runM .ws1 rest
                  from by simp [runM, hck]] at hfail
              exact ih rest (by simpa using hlen) .ws1 trivial hfail
            | cons k' ks' =>
              rw [show runM (.kwS k (k' :: ks')) (c :: redactKw W rest) =
                  runM (.kwS k' ks') (redactKw W rest)
                  from by simp [runM, hck]]
              rw [show runM (.kwS k (k' :: ks')) (c :: rest) =
                  runM (.kwS k' ks') rest from by simp [runM, hck]] at hfail
              exact ih rest (by simpa using hlen) (.kwS k' ks')
                (fun x hx => hσ x (by simp [List.mem_cons.mp hx])) hfail
          · rw [show runM (.kwS k ks) (c :: redactKw W rest) = false
              from by simp [runM, hck]]
        | ws1 =>
          by_cases hc : isJsSpace c = true
          · rw [show runM .ws1 (c :: redactKw W rest) =
                runM .ws1 (redactKw W rest) from by simp [runM, hc]]
            rw [show runM .ws1 (c :: rest) = runM .ws1 rest
                from by simp [runM, hc]] at hfail
            exact ih rest (by simpa using hlen) .ws1 trivial hfail
          · have hc' : isJsSpace c = false := by simpa using hc
            by_cases hs : sepChar c = true
            · rw [show runM .ws1 (c :: redactKw W rest) =
                  runM .ws2 (redactKw W rest) from by simp [runM, hc', hs]]
              rw [show runM .ws1 (c :: rest) = runM .ws2 rest
                  from by simp [runM, hc', hs]] at hfail
              exact ih rest (by simpa using hlen) .ws2 trivial hfail
            · have hs' : sepChar c = false := by simpa using hs
              rw [show runM .ws1 (c :: redactKw W rest) = false
                from by simp [runM, hc', hs']]
        | ws2 =>
          by_cases hc : isJsSpace c = true
          · rw [show runM .ws2 (c :: redactKw W rest) =
                runM .ws2 (redactKw W rest) from by simp [runM, hc]]
            rw [show runM .ws2 (c :: rest) = runM .ws2 rest
                from by simp [runM, hc]] at hfail
            exact ih rest (by simpa using hlen) .ws2 trivial hfail
          · have hc' : isJsSpace c = false := by simpa using hc
            rw [show runM .ws2 (c :: rest) = true
              from by simp [runM, hc']] at hfail
            cases hfail
      · simp only []
        obtain ⟨s1, hstrip, hws1⟩ :=
          (tryRedactMatch_some_iff W (c :: rest)).mp ⟨r, hmatch⟩
        obtain ⟨pre, hpre, hall⟩ := stripKw_decomp W (c :: rest) s1 hstrip
        rw [hpre] at hfail
        have hgoal : redactionCanon W ++ redactKw W r =
            W ++ (": [REDACTED]".data ++ redactKw W r) := by
          simp [redactionCanon]
        rw [hgoal]
        have hpar := runM_parallel pre W
          (forall₂_pairEquiv pre W hWgood hall) σ s1
          (": [REDACTED]".data ++ redactKw W r)
        rcases hpar with ⟨-, h2⟩ | ⟨h1, -⟩ | ⟨σ', hok, h1, h2⟩
        · exact h2
        · rw [hfail] at h1; cases h1
        · rw [h2]
          have hσ' := hok hσ
          rw [hfail] at h1
          cases σ' with
          | kwS k' ks' =>
            have hres : runM (.kwS k' ks')
                (": [REDACTED]".data ++ redactKw W r) = false := by
              show runM (.kwS k' ks') (':' :: (" [REDACTED]".data ++
                redactKw W r)) = false
              exact runM_kwS_colon k' ks' _ (hσ' k' (by simp))
            exact hres
          | ws1 => rw [hws1] at h1; cases h1
          | ws2 =>
            rw [runM_ws1_of_ws2 s1 hws1] at h1
            cases h1
/-- Every match of the `kw` pattern inside `l` (at any start position) is
exactly the canonical replacement: replacing it changes nothing. -/
def CanonicalKw (kw l : List Char) : Prop :=
  ∀ i r, tryRedactMatch kw (l.drop i) = some r →
    l.drop i = redactionCanon kw ++ r

theorem canonicalKw_nil (kw : List Char) : CanonicalKw kw [] := by
  intro i r h
  rw [List.drop_nil] at h
  unfold tryRedactMatch at h
  rcases hstrip : stripKw kw [] with - | s1 <;> rw [hstrip] at h
  · cases h
  · cases kw with
    | nil =>
      obtain rfl : s1 = [] := by simpa [stripKw] using hstrip.symm
      cases h
    | cons k ks => simp [stripKw] at hstrip

theorem canonicalKw_drop (kw l : List Char) (h : CanonicalKw kw l) (j : Nat) :
    CanonicalKw kw (l.drop j) := by
  intro i r hm
  rw [List.drop_drop] at hm ⊢
  exact h _ r hm

theorem canonicalKw_suffix (kw l u : List Char) (h : CanonicalKw kw l)
    (hs : u <:+ l) : CanonicalKw kw u := by
  obtain ⟨t, rfl⟩ := hs
  have : u = (t ++ u).drop t.length := by simp
  rw [this]
  exact canonicalKw_drop kw _ h _

theorem canonicalKw_cons (kw : List Char) (c : Char) (t : List Char)
    (h0 : ∀ r, tryRedactMatch kw (c :: t) = some r →
      c :: t = redactionCanon kw ++ r)
    (ht : CanonicalKw kw t) : CanonicalKw kw (c :: t) := by
  intro i r hm
  cases i with
  | zero => exact h0 r hm
  | succ j =>
    rw [List.drop_succ_cons] at hm ⊢
    exact ht j r hm

theorem canonicalKw_canon_append (kw : List Char) (O : List Char)
    (h0 : tryRedactMatch kw (redactionCanon kw ++ O) = some O)
    (hinner : ∀ p, 1 ≤ p → p < (redactionCanon kw).length →
      tryRedactMatch kw ((redactionCanon kw).drop p ++ O) = none)
    (hO : CanonicalKw kw O) : CanonicalKw kw (redactionCanon kw ++ O) := by
  intro i r hm
  by_cases hi : i = 0
  · subst hi
    rw [List.drop_zero] at hm ⊢
    rw [h0] at hm
    obtain rfl : O = r := by injection hm
    rfl
  · by_cases hlt : i < (redactionCanon kw).length
    · rw [List.drop_append_of_le_length (Nat.le_of_lt hlt)] at hm
      rw [hinner i (Nat.one_le_iff_ne_zero.mpr hi) hlt] at hm
      cases hm
    · have hge : (redactionCanon kw).length ≤ i := Nat.le_of_not_lt hlt
      have hdrop : (redactionCanon kw ++ O).drop i =
          O.drop (i - (redactionCanon kw).length) := by
        rw [List.drop_append_eq_append_drop]
        rw [List.drop_eq_nil_of_le hge]
        simp
      rw [hdrop] at hm ⊢
      exact hO _ r hm

theorem redactKw_eq_self_of_canonical (kw : List Char) :
    ∀ (n : Nat) (l : List Char), l.length ≤ n → CanonicalKw kw l →
      redactKw kw l = l := by
  intro n
  induction n with
  | zero =>
    intro l hlen _
    have : l = [] := List.length_eq_zero.mp (Nat.le_zero.mp hlen)
    subst this
    rfl
  | succ n ih =>
    intro l hlen hcan
    cases l with
    | nil => rfl
    | cons c rest =>
      rw [redactKw_cons]
      rcases hmatch : tryRedactMatch kw (c :: rest) with - | r
      · simp only []
        rw [ih rest (by simpa using hlen)
          (canonicalKw_suffix kw _ rest hcan (List.suffix_cons c rest))]
      · simp only []
        have heq : c :: rest = redactionCanon kw ++ r := by
          have := hcan 0 r (by simpa using hmatch)
          simpa using this
        have hrlen : r.length ≤ n := by
          have := tryRedactMatch_shrink kw _ _ hmatch
          simp only [List.length_cons] at this hlen
          omega
        have hrcan : CanonicalKw kw r := by
          refine canonicalKw_suffix kw _ r hcan ⟨redactionCanon kw, heq.symm⟩
        rw [ih r hrlen hrcan, heq]

/-- `rem` disagrees with keyword `tk` (case-insensitively) at some index
that lies inside `rem` itself — a keyword match starting here fails no
matter what follows `rem`. -/
def mismatchWithin : List Char → List Char → Bool
  | _, [] => false
  | [], _ :: _ => false
  | c :: rem', k :: tk' => if c.toLower = k then mismatchWithin rem' tk' else true

theorem stripKw_none_of_mismatchWithin :
    ∀ (rem tk : List Char), mismatchWithin rem tk = true →
      ∀ t, stripKw tk (rem ++ t) = none := by
  intro rem
  induction rem with
  | nil =>
    intro tk h t
    cases tk <;> simp [mismatchWithin] at h
  | cons c rem' ih =>
    intro tk h t
    cases tk with
    | nil => simp [mismatchWithin] at h
    | cons k tk' =>
      by_cases hck : c.toLower = k
      · simp only [mismatchWithin, if_pos hck] at h
        simp [stripKw, hck, ih tk' h t]
      · simp [stripKw, hck]

theorem tryRedactMatch_none_of_mismatchWithin (rem tk t : List Char)
    (h : mismatchWithin rem tk = true) :
    tryRedactMatch tk (rem ++ t) = none := by
  unfold tryRedactMatch
  rw [stripKw_none_of_mismatchWithin rem tk h t]

/-- Decidable check: starting at every position `p ≥ p0` strictly inside the
canonical replacement of `w`, a `tk`-keyword match fails within the
replacement text itself. -/
def noInnerStartB (tk w : List Char) (p0 : Nat) : Bool :=
  (List.range (redactionCanon w).length).all fun p =>
    decide (p < p0) || mismatchWithin ((redactionCanon w).drop p) tk

theorem tryRedactMatch_none_inner (tk w : List Char) (p0 : Nat)
    (hB : noInnerStartB tk w p0 = true) (p : Nat) (hp0 : p0 ≤ p)
    (hp : p < (redactionCanon w).length) (t : List Char) :
    tryRedactMatch tk ((redactionCanon w).drop p ++ t) = none := by
  have := List.all_eq_true.mp hB p (List.mem_range.mpr hp)
  rcases Bool.or_eq_true_iff.mp this with h | h
  · exact absurd (by simpa using h) (Nat.not_lt.mpr hp0)
  · exact tryRedactMatch_none_of_mismatchWithin _ _ _ h

theorem redactKw_append_of_inner_none (S : List Char) :
    ∀ (L ρ : List Char),
      (∀ j, j < L.length → ∀ t, tryRedactMatch S (L.drop j ++ t) = none) →
      redactKw S (L ++ ρ) = L ++ redactKw S ρ := by
  intro L
  induction L with
  | nil => intro ρ _; rfl
  | cons c L' ih =>
    intro ρ hin
    rw [List.cons_append, redactKw_cons]
    have h0 : tryRedactMatch S (c :: (L' ++ ρ)) = none := by
      have := hin 0 (by simp) ρ
      simpa using this
    rw [h0]
    simp only []
    have hin' : ∀ j, j < L'.length → ∀ t,
        tryRedactMatch S (L'.drop j ++ t) = none := by
      intro j hj t
      have := hin (j + 1) (by simpa using Nat.succ_lt_succ hj) t
      simpa using this
    rw [ih ρ hin']
    rfl

/-- A value suffix (`\S+` remainder) starts with whitespace or is empty. -/
def SpaceHeaded (l : List Char) : Prop :=
  l = [] ∨ ∃ x xs, l = x :: xs ∧ isJsSpace x = true

theorem tryRedactMatch_remainder_spaceHeaded (kw s r : List Char)
    (h : tryRedactMatch kw s = some r) : SpaceHeaded r := by
  obtain ⟨s1, c, s3, -, -, -, hr, -⟩ := tryRedactMatch_decomp kw s r h
  rcases hr4 : (s3.dropWhile isJsSpace).dropWhile (fun d => !isJsSpace d) with
    - | ⟨y, ys⟩
  · left; rw [hr, hr4]
  · right
    refine ⟨y, ys, by rw [hr, hr4], ?_⟩
    have := dropWhile_cons_head_not (fun d => !isJsSpace d) _ _ _ hr4
    simpa using this

theorem tryRedactMatch_suffix (kw s r : List Char)
    (h : tryRedactMatch kw s = some r) : r <:+ s := by
  obtain ⟨s1, c, s3, hstrip, hdrop, -, hr, -⟩ := tryRedactMatch_decomp kw s r h
  obtain ⟨pre, rfl, -⟩ := stripKw_decomp kw s s1 hstrip
  have h1 : s1 <:+ pre ++ s1 := List.suffix_append pre s1
  have h2 : c :: s3 <:+ s1 := by
    rw [← hdrop]
    exact List.dropWhile_suffix isJsSpace
  have h3 : s3 <:+ c :: s3 := List.suffix_cons c s3
  have h4 : s3.dropWhile isJsSpace <:+ s3 := List.dropWhile_suffix isJsSpace
  have h5 : r <:+ s3.dropWhile isJsSpace := by
    rw [hr]
    exact List.dropWhile_suffix _
  exact h5.trans (h4.trans (h3.trans (h2.trans h1)))

theorem forall₂_lower_self (kw : List Char) (hgood : KwGood kw) :
    List.Forall₂ (fun c k => c.toLower = k) kw kw := by
  rw [List.forall₂_same]
  intro x hx
  have := hgood x hx
  simp only [letterOK, Bool.decide_and, Bool.and_eq_true,
    decide_eq_true_eq] at this
  exact this.1

theorem tryRedactMatch_canon_append (kw : List Char) (hgood : KwGood kw)
    (t : List Char) (ht : SpaceHeaded t) :
    tryRedactMatch kw (redactionCanon kw ++ t) = some t := by
  unfold tryRedactMatch
  have hstrip : stripKw kw (redactionCanon kw ++ t) =
      some (": [REDACTED]".data ++ t) := by
    have hassoc : redactionCanon kw ++ t = kw ++ (": [REDACTED]".data ++ t) := by
      simp [redactionCanon]
    rw [hassoc]
    exact stripKw_of_forall₂ kw kw _ (forall₂_lower_self kw hgood)
  rw [hstrip]
  have hd1 : (": [REDACTED]".data ++ t).dropWhile isJsSpace =
      ':' :: (" [REDACTED]".data ++ t) := by
    show ((':' :: " [REDACTED]".data) ++ t).dropWhile isJsSpace = _
    rw [List.cons_append, List.dropWhile_cons_of_neg (by decide)]
  show (match (": [REDACTED]".data ++ t).dropWhile isJsSpace with
    | [] => (none : Option (List Char))
    | c :: s3 =>
      if c = ':' ∨ c = '=' then
        if ((s3.dropWhile isJsSpace).takeWhile
            (fun d => !isJsSpace d)).isEmpty = true then none
        else some ((s3.dropWhile isJsSpace).dropWhile
            (fun d => !isJsSpace d))
      else none) = some t
  rw [hd1]
  show (if (':' = ':' ∨ ':' = '=') then
      if (((" [REDACTED]".data ++ t).dropWhile isJsSpace).takeWhile
          (fun d => !isJsSpace d)).isEmpty = true then none
      else some (((" [REDACTED]".data ++ t).dropWhile isJsSpace).dropWhile
          (fun d => !isJsSpace d))
    else none) = some t
  rw [if_pos (Or.inl rfl)]
  have hd2 : (" [REDACTED]".data ++ t).dropWhile isJsSpace =
      "[REDACTED]".data ++ t := by
    show ((' ' :: "[REDACTED]".data) ++ t).dropWhile isJsSpace = _
    rw [List.cons_append, List.dropWhile_cons_of_pos (by decide)]
    show (('[' :: "REDACTED]".data) ++ t).dropWhile isJsSpace = _
    rw [List.cons_append, List.dropWhile_cons_of_neg (by decide)]
  rw [hd2]
  have hval : (("[REDACTED]".data ++ t).takeWhile
      (fun d => !isJsSpace d)).isEmpty = false := by
    show ((('[' :: "REDACTED]".data) ++ t).takeWhile
      (fun d => !isJsSpace d)).isEmpty = false
    rw [List.cons_append, List.takeWhile_cons_of_pos (by decide)]
    simp
  rw [if_neg (by simp [hval, show isJsSpace '[' = false from by decide])]
  have hdropv : ("[REDACTED]".data ++ t).dropWhile (fun d => !isJsSpace d)
      = t := by
    rw [show "[REDACTED]".data ++ t = '[' :: 'R' :: 'E' :: 'D' :: 'A' ::
      'C' :: 'T' :: 'E' :: 'D' :: ']' :: t from rfl]
    rw [List.dropWhile_cons_of_pos (by decide),
      List.dropWhile_cons_of_pos (by decide),
      List.dropWhile_cons_of_pos (by decide),
      List.dropWhile_cons_of_pos (by decide),
      List.dropWhile_cons_of_pos (by decide),
      List.dropWhile_cons_of_pos (by decide),
      List.dropWhile_cons_of_pos (by decide),
      List.dropWhile_cons_of_pos (by decide),
      List.dropWhile_cons_of_pos (by decide),
      List.dropWhile_cons_of_pos (by decide)]
    rcases ht with rfl | ⟨x, xs, rfl, hx⟩
    · rfl
    · rw [List.dropWhile_cons_of_neg (by simp [hx])]
  rw [hdropv]

theorem redactKw_spaceHeaded (W : List Char) (w : Char) (ws : List Char)
    (hW : W = w :: ws) (hgood : KwGood W) (l : List Char)
    (hl : SpaceHeaded l) : SpaceHeaded (redactKw W l) := by
  rcases hl with rfl | ⟨x, xs, rfl, hx⟩
  · left; rfl
  · rw [redactKw_cons]
    have hmm : tryRedactMatch W (x :: xs) = none := by
      unfold tryRedactMatch
      have hstrip : stripKw W (x :: xs) = none := by
        rw [hW]
        simp only [stripKw]
        rw [if_neg ?_]
        intro heq
        have hxl : x.toLower = x := jsSpace_toLower_self x hx
        rw [hxl] at heq
        subst heq
        have := hgood x (by rw [hW]; simp)
        simp only [letterOK, Bool.decide_and, Bool.and_eq_true,
          decide_eq_true_eq] at this
        rw [hx] at this
        simp at this
      rw [hstrip]
    rw [hmm]
    exact Or.inr ⟨x, redactKw W xs, rfl, hx⟩

theorem canonicalKw_append_of_all_none (kw L O : List Char)
    (hnone : ∀ p, p < L.length → tryRedactMatch kw (L.drop p ++ O) = none)
    (hO : CanonicalKw kw O) : CanonicalKw kw (L ++ O) := by
  intro i r hm
  by_cases hlt : i < L.length
  · rw [List.drop_append_of_le_length (Nat.le_of_lt hlt)] at hm
    rw [hnone i hlt] at hm
    cases hm
  · have hge : L.length ≤ i := Nat.le_of_not_lt hlt
    have hdrop : (L ++ O).drop i = O.drop (i - L.length) := by
      rw [List.drop_append_eq_append_drop, List.drop_eq_nil_of_le hge]
      simp
    rw [hdrop] at hm ⊢
    exact hO _ r hm

theorem canonicalKw_redactKw_self (k : Char) (ks : List Char)
    (hgood : KwGood (k :: ks)) (hinner : noInnerStartB (k :: ks) (k :: ks) 1 = true) :
    ∀ (n : Nat) (l : List Char), l.length ≤ n →
      CanonicalKw (k :: ks) (redactKw (k :: ks) l) := by
  intro n
  induction n with
  | zero =>
    intro l hlen
    have : l = [] := List.length_eq_zero.mp (Nat.le_zero.mp hlen)
    subst this
    exact canonicalKw_nil (k :: ks)
  | succ n ih =>
    intro l hlen
    cases l with
    | nil => exact canonicalKw_nil (k :: ks)
    | cons c rest =>
      rw [redactKw_cons]
      rcases hmatch : tryRedactMatch (k :: ks) (c :: rest) with - | r
      · simp only []
        refine canonicalKw_cons (k :: ks) c (redactKw (k :: ks) rest) ?_
          (ih rest (by simpa using hlen))
        intro r' hm'
        exfalso
        have hfail : runM (.kwS k ks) (c :: rest) = false := by
          rw [← tryRedactMatch_isSome_eq_runM, hmatch]
          rfl
        have htrans := runM_fail_transfer (k :: ks) hgood (c :: rest).length
          (c :: rest) le_rfl (.kwS k ks) hgood hfail
        rw [show redactKw (k :: ks) (c :: rest) =
            c :: redactKw (k :: ks) rest from by
          rw [redactKw_cons, hmatch]] at htrans
        have hsome : (tryRedactMatch (k :: ks)
            (c :: redactKw (k :: ks) rest)).isSome = true := by
          rw [hm']; rfl
        rw [tryRedactMatch_isSome_eq_runM] at hsome
        rw [hsome] at htrans
        cases htrans
      · simp only []
        have hsh : SpaceHeaded r :=
          tryRedactMatch_remainder_spaceHeaded _ _ _ hmatch
        have hshO : SpaceHeaded (redactKw (k :: ks) r) :=
          redactKw_spaceHeaded (k :: ks) k ks rfl hgood r hsh
        refine canonicalKw_canon_append (k :: ks) (redactKw (k :: ks) r)
          ?_ ?_ ?_
        · exact tryRedactMatch_canon_append (k :: ks) hgood _ hshO
        · intro p hp1 hp2
          exact tryRedactMatch_none_inner (k :: ks) (k :: ks) 1 hinner
            p hp1 hp2 _
        · refine ih r ?_
          have := tryRedactMatch_shrink (k :: ks) _ _ hmatch
          simp only [List.length_cons] at this hlen
          omega

theorem canonicalKw_redactKw_cross (k : Char) (ks : List Char)
    (hTKgood : KwGood (k :: ks)) (w : Char) (ws : List Char)
    (hWgood : KwGood (w :: ws))
    (hTKW : noInnerStartB (k :: ks) (w :: ws) 0 = true)
    (hWTK : noInnerStartB (w :: ws) (k :: ks) 0 = true)
    (hTKTK : noInnerStartB (k :: ks) (k :: ks) 1 = true) :
    ∀ (n : Nat) (l : List Char), l.length ≤ n → CanonicalKw (k :: ks) l →
      CanonicalKw (k :: ks) (redactKw (w :: ws) l) := by
  intro n
  induction n with
  | zero =>
    intro l hlen _
    have : l = [] := List.length_eq_zero.mp (Nat.le_zero.mp hlen)
    subst this
    exact canonicalKw_nil (k :: ks)
  | succ n ih =>
    intro l hlen hcan
    rcases hm0 : tryRedactMatch (k :: ks) l with - | ρ
    · cases l with
      | nil => exact canonicalKw_nil (k :: ks)
      | cons c rest =>
        rw [redactKw_cons]
        rcases hmW : tryRedactMatch (w :: ws) (c :: rest) with - | r₂
        · simp only []
          refine canonicalKw_cons (k :: ks) c (redactKw (w :: ws) rest) ?_
            (ih rest (by simpa using hlen)
              (canonicalKw_suffix (k :: ks) _ rest hcan
                (List.suffix_cons c rest)))
          intro r' hm'
          exfalso
          have hfail : runM (.kwS k ks) (c :: rest) = false := by
            rw [← tryRedactMatch_isSome_eq_runM, hm0]
            rfl
          have htrans := runM_fail_transfer (w :: ws) hWgood
            (c :: rest).length (c :: rest) le_rfl (.kwS k ks) hTKgood hfail
          rw [show redactKw (w :: ws) (c :: rest) =
              c :: redactKw (w :: ws) rest from by
            rw [redactKw_cons, hmW]] at htrans
          have hsome : (tryRedactMatch (k :: ks)
              (c :: redactKw (w :: ws) rest)).isSome = true := by
            rw [hm']; rfl
          rw [tryRedactMatch_isSome_eq_runM] at hsome
          rw [hsome] at htrans
          cases htrans
        · simp only []
          have hr₂can : CanonicalKw (k :: ks) r₂ :=
            canonicalKw_suffix (k :: ks) _ r₂ hcan
              (tryRedactMatch_suffix (w :: ws) _ _ hmW)
          have hr₂len : r₂.length ≤ n := by
            have := tryRedactMatch_shrink (w :: ws) _ _ hmW
            simp only [List.length_cons] at this hlen
            omega
          refine canonicalKw_append_of_all_none (k :: ks)
            (redactionCanon (w :: ws)) (redactKw (w :: ws) r₂) ?_
            (ih r₂ hr₂len hr₂can)
          intro p hp
          exact tryRedactMatch_none_inner (k :: ks) (w :: ws) 0 hTKW
            p (Nat.zero_le _) hp _
    · have heq : l = redactionCanon (k :: ks) ++ ρ := by
        have := hcan 0 ρ (by simpa using hm0)
        simpa using this
      have hD : redactKw (w :: ws) l =
          redactionCanon (k :: ks) ++ redactKw (w :: ws) ρ := by
        rw [heq]
        refine redactKw_append_of_inner_none (w :: ws)
          (redactionCanon (k :: ks)) ρ ?_
        intro j hj t
        exact tryRedactMatch_none_inner (w :: ws) (k :: ks) 0 hWTK
          j (Nat.zero_le _) hj t
      rw [hD]
      have hρcan : CanonicalKw (k :: ks) ρ :=
        canonicalKw_suffix (k :: ks) l ρ hcan
          (tryRedactMatch_suffix (k :: ks) l ρ hm0)
      have hρlen : ρ.length ≤ n := by
        have := tryRedactMatch_shrink (k :: ks) _ _ hm0
        omega
      refine canonicalKw_canon_append (k :: ks) (redactKw (w :: ws) ρ)
        ?_ ?_ (ih ρ hρlen hρcan)
      · refine tryRedactMatch_canon_append (k :: ks) hTKgood _ ?_
        exact redactKw_spaceHeaded (w :: ws) w ws rfl hWgood ρ
          (tryRedactMatch_remainder_spaceHeaded (k :: ks) l ρ hm0)
      · intro p hp1 hp2
        exact tryRedactMatch_none_inner (k :: ks) (k :: ks) 1 hTKTK
          p hp1 hp2 _

theorem redactChain_idem (l : List Char) :
    redactKw ('s' :: "ecret".data) (redactKw ('k' :: "ey".data)
      (redactKw ('t' :: "oken".data) (redactKw ('p' :: "assword".data)
        (redactKw ('s' :: "ecret".data) (redactKw ('k' :: "ey".data)
          (redactKw ('t' :: "oken".data)
            (redactKw ('p' :: "assword".data) l))))))) =
    redactKw ('s' :: "ecret".data) (redactKw ('k' :: "ey".data)
      (redactKw ('t' :: "oken".data) (redactKw ('p' :: "assword".data) l))) := by
  have g1 : KwGood ('p' :: "assword".data) := by unfold KwGood; decide
  have g2 : KwGood ('t' :: "oken".data) := by unfold KwGood; decide
  have g3 : KwGood ('k' :: "ey".data) := by unfold KwGood; decide
  have g4 : KwGood ('s' :: "ecret".data) := by unfold KwGood; decide
  have h1a : CanonicalKw ('p' :: "assword".data)
      (redactKw ('p' :: "assword".data) l) :=
    canonicalKw_redactKw_self 'p' "assword".data g1 (by decide) _ _ le_rfl
  have h1b : CanonicalKw ('p' :: "assword".data)
      (redactKw ('t' :: "oken".data) (redactKw ('p' :: "assword".data) l)) :=
    canonicalKw_redactKw_cross 'p' "assword".data g1 't' "oken".data g2
      (by decide) (by decide) (by decide) _ _ le_rfl h1a
  have h1c : CanonicalKw ('p' :: "assword".data)
      (redactKw ('k' :: "ey".data)
        (redactKw ('t' :: "oken".data) (redactKw ('p' :: "assword".data) l))) :=
    canonicalKw_redactKw_cross 'p' "assword".data g1 'k' "ey".data g3
      (by decide) (by decide) (by decide) _ _ le_rfl h1b
  have h1d : CanonicalKw ('p' :: "assword".data)
      (redactKw ('s' :: "ecret".data) (redactKw ('k' :: "ey".data)
        (redactKw ('t' :: "oken".data)
          (redactKw ('p' :: "assword".data) l)))) :=
    canonicalKw_redactKw_cross 'p' "assword".data g1 's' "ecret".data g4
      (by decide) (by decide) (by decide) _ _ le_rfl h1c
  have h2a : CanonicalKw ('t' :: "oken".data)
      (redactKw ('t' :: "oken".data) (redactKw ('p' :: "assword".data) l)) :=
    canonicalKw_redactKw_self 't' "oken".data g2 (by decide) _ _ le_rfl
  have h2b : CanonicalKw ('t' :: "oken".data)
      (redactKw ('k' :: "ey".data)
        (redactKw ('t' :: "oken".data) (redactKw ('p' :: "assword".data) l))) :=
    canonicalKw_redactKw_cross 't' "oken".data g2 'k' "ey".data g3
      (by decide) (by decide) (by decide) _ _ le_rfl h2a
  have h2c : CanonicalKw ('t' :: "oken".data)
      (redactKw ('s' :: "ecret".data) (redactKw ('k' :: "ey".data)
        (redactKw ('t' :: "oken".data)
          (redactKw ('p' :: "assword".data) l)))) :=
    canonicalKw_redactKw_cross 't' "oken".data g2 's' "ecret".data g4
      (by decide) (by decide) (by decide) _ _ le_rfl h2b
  have h3a : CanonicalKw ('k' :: "ey".data)
      (redactKw ('k' :: "ey".data)
        (redactKw ('t' :: "oken".data) (redactKw ('p' :: "assword".data) l))) :=
    canonicalKw_redactKw_self 'k' "ey".data g3 (by decide) _ _ le_rfl
  have h3b : CanonicalKw ('k' :: "ey".data)
      (redactKw ('s' :: "ecret".data) (redactKw ('k' :: "ey".data)
        (redactKw ('t' :: "oken".data)
          (redactKw ('p' :: "assword".data) l)))) :=
    canonicalKw_redactKw_cross 'k' "ey".data g3 's' "ecret".data g4
      (by decide) (by decide) (by decide) _ _ le_rfl h3a
  have h4a : CanonicalKw ('s' :: "ecret".data)
      (redactKw ('s' :: "ecret".data) (redactKw ('k' :: "ey".data)
        (redactKw ('t' :: "oken".data)
          (redactKw ('p' :: "assword".data) l)))) :=
    canonicalKw_redactKw_self 's' "ecret".data g4 (by decide) _ _ le_rfl
  rw [redactKw_eq_self_of_canonical ('p' :: "assword".data) _ _ le_rfl h1d,
    redactKw_eq_self_of_canonical ('t' :: "oken".data) _ _ le_rfl h2c,
    redactKw_eq_self_of_canonical ('k' :: "ey".data) _ _ le_rfl h3b,
    redactKw_eq_self_of_canonical ('s' :: "ecret".data) _ _ le_rfl h4a]

/-- C7 — `filterOutput` is idempotent on string outputs: for every string
`s`, a second pass of the four redaction regexes over
`filterOutputString s` changes nothing, hence
`filterOutput (filterOutput v) = filterOutput v` for every value; in
particular the already-redacted text `"password: [REDACTED]"` is returned
unchanged, with no double-redaction artifacts. -/
theorem filterOutput_idempotent :
    (∀ s : String, filterOutputString (filterOutputString s) =
      filterOutputString s) ∧
    (∀ v : InputVal, filterOutput (filterOutput v) = filterOutput v) ∧
    filterOutputString "password: [REDACTED]" = "password: [REDACTED]" := by
  have hstr : ∀ s : String, filterOutputString (filterOutputString s) =
      filterOutputString s := by
    intro s
    apply congrArg String.mk
    exact redactChain_idem s.data
  refine ⟨hstr, ?_, ?_⟩
  · intro v
    cases v with
    | vStr s => exact congrArg InputVal.vStr (hstr s)
    | vInt n => rfl
    | vBool b => rfl
    | vNull => rfl
    | vArr xs => rfl
    | vObj kvs => rfl
    | vCyclic => rfl
  · rfl

end ShortcutMCP
